import Mathlib

/-!
mintop: a verification development.

Shallow embedding of `main.go` (the three metric formatters, the render
counter and the event loop) together with the part of the Go runtime the
formatters rest on: IEEE-754 binary64 arithmetic with round-to-nearest-even,
`math.Round`, and the `%v` rendering of `float64` and `int` used by
`fmt.Sprint`.

All numbers are `Nat`/`Int`; every loop is structural, so each definition can
be evaluated on concrete inputs.
-/

namespace Mintop

/-! ## binary64 -/

/-- A `float64` value. `fin neg m e` denotes `(-1)^neg * m * 2^e`; the values
produced by the operations below are canonical: `m < 2^53`, `-1074 ≤ e ≤ 971`,
and `m < 2^52` only when `e = -1074` (subnormals and the two zeros). -/
inductive F64
  | nan
  | inf (neg : Bool)
  | fin (neg : Bool) (m : Nat) (e : Int)
deriving DecidableEq

/-- The fraction `(num / den) / 2^e`, as numerator and denominator. -/
def scale2 (num den : Nat) (e : Int) : Nat × Nat :=
  if 0 ≤ e then (num, den * 2 ^ e.toNat) else (num * 2 ^ (-e).toNat, den)

/-- Least exponent `e' ≥ e` (searching at most `fuel` steps) for which
`num / den < 2^(53 + e')`. -/
def findExp : Nat → Int → Nat → Nat → Int
  | 0, e, _, _ => e
  | fuel + 1, e, num, den =>
    if (scale2 num den e).1 < (scale2 num den e).2 * 2 ^ 53 then e
    else findExp fuel (e + 1) num den

/-- Nearest integer to `n / d`, ties to the even one. -/
def roundHalfEven (n d : Nat) : Nat :=
  if 2 * (n % d) < d then n / d
  else if d < 2 * (n % d) then n / d + 1
  else if (n / d) % 2 = 0 then n / d else n / d + 1

/-- Exponent of the binade of `num / den`, never below the subnormal one. -/
def binadeExp (num den : Nat) : Int := findExp 2046 (-1074) num den

/-- Significand of `num / den` rounded in its binade (may reach `2^53`). -/
def binadeMant (num den : Nat) : Nat :=
  roundHalfEven (scale2 num den (binadeExp num den)).1 (scale2 num den (binadeExp num den)).2

/-- Round the non-negative rational `num / den` (`den > 0`) to the nearest
binary64 value, ties to even, overflowing to infinity; `neg` is the sign. -/
def roundPos (neg : Bool) (num den : Nat) : F64 :=
  if binadeMant num den = 2 ^ 53 then
    (if 971 < binadeExp num den + 1 then .inf neg else .fin neg (2 ^ 52) (binadeExp num den + 1))
  else if 971 < binadeExp num den then .inf neg
  else .fin neg (binadeMant num den) (binadeExp num den)

/-- Positive zero, the value of the literal `0.0`. -/
def F64.zero : F64 := .fin false 0 (-1074)

/-- Conversion `float64(n)` of an unsigned integer. -/
def F64.ofNat (n : Nat) : F64 := roundPos false n 1

/-- Conversion `float64(i)` of a signed integer. -/
def F64.ofInt (i : Int) : F64 := roundPos (decide (i < 0)) i.natAbs 1

/-- The signed integer `(-1)^neg * m * 2^(e - base)`, for `base ≤ e`. -/
def alignedInt (neg : Bool) (m : Nat) (e base : Int) : Int :=
  if neg then -((m * 2 ^ (e - base).toNat : Nat) : Int) else ((m * 2 ^ (e - base).toNat : Nat) : Int)

/-- Go `x + y` on `float64`. -/
def F64.add : F64 → F64 → F64
  | .nan, _ => .nan
  | _, .nan => .nan
  | .inf a, .inf b => if a = b then .inf a else .nan
  | .inf a, .fin _ _ _ => .inf a
  | .fin _ _ _, .inf b => .inf b
  | .fin na ma ea, .fin nb mb eb =>
    if alignedInt na ma ea (min ea eb) + alignedInt nb mb eb (min ea eb) = 0 then
      .fin (na && nb) 0 (-1074)
    else
      roundPos (decide (alignedInt na ma ea (min ea eb) + alignedInt nb mb eb (min ea eb) < 0))
        (scale2 (alignedInt na ma ea (min ea eb) + alignedInt nb mb eb (min ea eb)).natAbs 1
          (-(min ea eb))).1
        (scale2 (alignedInt na ma ea (min ea eb) + alignedInt nb mb eb (min ea eb)).natAbs 1
          (-(min ea eb))).2

/-- Go `x * y` on `float64`. -/
def F64.mul : F64 → F64 → F64
  | .nan, _ => .nan
  | _, .nan => .nan
  | .inf a, .inf b => .inf (xor a b)
  | .inf a, .fin nb mb _ => if mb = 0 then .nan else .inf (xor a nb)
  | .fin na ma _, .inf b => if ma = 0 then .nan else .inf (xor na b)
  | .fin na ma ea, .fin nb mb eb =>
    roundPos (xor na nb) (scale2 (ma * mb) 1 (-(ea + eb))).1 (scale2 (ma * mb) 1 (-(ea + eb))).2

/-- Go `x / y` on `float64`. -/
def F64.div : F64 → F64 → F64
  | .nan, _ => .nan
  | _, .nan => .nan
  | .inf _, .inf _ => .nan
  | .inf a, .fin nb _ _ => .inf (xor a nb)
  | .fin na _ _, .inf b => .fin (xor na b) 0 (-1074)
  | .fin na ma ea, .fin nb mb eb =>
    if mb = 0 then (if ma = 0 then .nan else .inf (xor na nb))
    else roundPos (xor na nb) (scale2 ma mb (eb - ea)).1 (scale2 ma mb (eb - ea)).2

/-- Go `math.Round`: nearest integer, halves away from zero; the sign, NaN and
the infinities pass through. -/
def mathRound : F64 → F64
  | .fin neg m e =>
    if 0 ≤ e then .fin neg m e
    else if 2 ^ (-e).toNat ≤ 2 * (m % 2 ^ (-e).toNat) then roundPos neg (m / 2 ^ (-e).toNat + 1) 1
    else roundPos neg (m / 2 ^ (-e).toNat) 1
  | x => x

/-- Go `x <= y` on `float64` (false as soon as a NaN is involved). -/
def F64.le : F64 → F64 → Bool
  | .nan, _ => false
  | _, .nan => false
  | .inf a, .inf b => a || !b
  | .inf a, .fin _ _ _ => a
  | .fin _ _ _, .inf b => !b
  | .fin na ma ea, .fin nb mb eb =>
    decide (alignedInt na ma ea (min ea eb) ≤ alignedInt nb mb eb (min ea eb))

/-! ## `fmt.Sprint` on numbers -/

/-- The character of the decimal digit `d`. -/
def digitChar (d : Nat) : Char := Char.ofNat (48 + d % 10)

/-- Decimal digits of `n`, most significant first, pushed in front of `acc`. -/
def digitsAux : Nat → Nat → List Char → List Char
  | 0, _, acc => acc
  | fuel + 1, n, acc =>
    if n < 10 then digitChar n :: acc else digitsAux fuel (n / 10) (digitChar (n % 10) :: acc)

/-- Decimal digits of a natural number (`"0"` for zero). -/
def natDigits (n : Nat) : List Char := digitsAux n.succ n []

/-- Shorthand of the source: `fmt.Sprint` of an `int`. -/
def itos (value : Int) : String :=
  if value < 0 then String.mk ('-' :: natDigits value.natAbs) else String.mk (natDigits value.natAbs)

/-- The natural number `n * 2^e * 10^k` (exact when `-e ≤ k`). -/
def decScale (n : Nat) (e : Int) (k : Nat) : Nat :=
  if 0 ≤ e then n * 2 ^ e.toNat * 10 ^ k else n * 10 ^ k / 2 ^ (-e).toNat

/-- Drop the trailing zero digits of `d`, counting them into the exponent. -/
def stripZeros : Nat → Nat → Nat → Nat × Nat
  | 0, d, p => (d, p)
  | fuel + 1, d, p => if d ≠ 0 ∧ d % 10 = 0 then stripZeros fuel (d / 10) (p + 1) else (d, p)

/-- The digit walk of `strconv`'s shortest formatting, on integers scaled by a
common power of ten: `x` is the value, `lo` and `hi` the half-way points to the
neighbouring floats, `incl` whether they still round to `x`. At the first
decimal position (from the top) where the truncation of `x` or its successor
lies within the bounds, the walk stops; when both do, the nearer one (ties to
the even digit) is taken. Returns the digits as a number and their position. -/
def shortestWalk : Nat → Nat → Nat → Nat → Bool → Nat × Nat
  | 0, x, _, _, _ => (x, 0)
  | p + 1, x, lo, hi, incl =>
    if (lo < x / 10 ^ p * 10 ^ p ∨ (incl = true ∧ lo = x / 10 ^ p * 10 ^ p)) then
      (if (x / 10 ^ p * 10 ^ p + 10 ^ p < hi ∨ (incl = true ∧ x / 10 ^ p * 10 ^ p + 10 ^ p ≤ hi)) then
        (if 2 * (x % 10 ^ p) < 10 ^ p then (x / 10 ^ p, p)
         else if 10 ^ p < 2 * (x % 10 ^ p) then (x / 10 ^ p + 1, p)
         else if (x / 10 ^ p) % 2 = 0 then (x / 10 ^ p, p) else (x / 10 ^ p + 1, p))
      else (x / 10 ^ p, p))
    else if (x / 10 ^ p * 10 ^ p + 10 ^ p < hi ∨ (incl = true ∧ x / 10 ^ p * 10 ^ p + 10 ^ p ≤ hi)) then
      (x / 10 ^ p + 1, p)
    else shortestWalk p x lo hi incl

/-- Number of decimal places by which the value of `m * 2^e` and its two
half-way points are scaled to become integers. -/
def decPlaces (e : Int) : Nat := if e < 2 then (2 - e).toNat else 0

/-- Lower half-way point of `m * 2^e`, scaled by `10^k`: the gap below a power
of two (other than the least normal one) is half the gap above it. -/
def lowerBound (m : Nat) (e : Int) (k : Nat) : Nat :=
  if 2 ^ 52 < m ∨ e = -1074 then decScale (2 * m - 1) (e - 1) k else decScale (4 * m - 1) (e - 2) k

/-- Shortest decimal digits that identify the positive float `m * 2^e`:
the digit string and the position `dp` of the decimal point
(the value reads `0.d₁d₂… × 10^dp`). -/
def shortestDigits (m : Nat) (e : Int) : List Char × Int :=
  let k := decPlaces e
  let w := shortestWalk ((natDigits (decScale (2 * m + 1) (e - 1) k)).length + 1)
    (decScale m e k) (lowerBound m e k) (decScale (2 * m + 1) (e - 1) k) (m % 2 = 0)
  let s := stripZeros (w.1 + 1) w.1 w.2
  (natDigits s.1, ((natDigits s.1).length : Int) + (s.2 : Int) - (k : Int))

/-- The exponent suffix of `%e`: sign and at least two digits. -/
def fmtExp (exp : Int) : List Char :=
  'e' :: (if exp < 0 then '-' else '+') ::
    (if exp.natAbs < 10 then '0' :: natDigits exp.natAbs else natDigits exp.natAbs)

/-- The `%e` layout of a digit string, with the precision of the shortest form. -/
def fmtE (ds : List Char) (dp : Int) : List Char :=
  match ds with
  | [] => '0' :: fmtExp 0
  | [d] => d :: fmtExp (dp - 1)
  | d :: rest => d :: '.' :: (rest ++ fmtExp (dp - 1))

/-- The `%f` layout of a digit string, with the precision of the shortest form. -/
def fmtF (ds : List Char) (dp : Int) : List Char :=
  (if 0 < dp then ds.take dp.toNat ++ List.replicate (dp.toNat - ds.length) '0' else ['0']) ++
  (if dp < (ds.length : Int) then
    '.' :: (List.replicate (-dp).toNat '0' ++ ds.drop dp.toNat)
   else [])

/-- The `%g` choice with shortest precision: exponent form when the decimal
exponent is below `-4` or at least `6`. -/
def fmtG (ds : List Char) (dp : Int) : List Char :=
  if dp - 1 < -4 ∨ 6 ≤ dp - 1 then fmtE ds dp else fmtF ds dp

/-- Shorthand of the source: `fmt.Sprint` of a `float64` (the `%v` verb). -/
def ftos : F64 → String
  | .nan => "NaN"
  | .inf false => "+Inf"
  | .inf true => "-Inf"
  | .fin neg m e =>
    if m = 0 then (if neg then "-0" else "0")
    else String.mk ((if neg then ['-'] else []) ++
      fmtG (shortestDigits m e).1 (shortestDigits m e).2)

/-! ## The formatters of `main.go` -/

/-- Formats bytes given by VirtualMemory into a gigabyte `float64` value. -/
def formatBytesAsGB (value : Nat) : F64 :=
  F64.div (mathRound (F64.mul (F64.div (F64.ofNat value) (F64.ofNat 1000000000)) (F64.ofNat 10)))
    (F64.ofNat 10)

/-- Charging state of a battery, as enumerated by the battery library. -/
inductive State
  | Unknown
  | Empty
  | Full
  | Charging
  | Discharging
deriving DecidableEq

/-- The label `State.String()` of the battery library. -/
def State.String : State → String
  | .Unknown => "Unknown"
  | .Empty => "Empty"
  | .Full => "Full"
  | .Charging => "Charging"
  | .Discharging => "Discharging"

/-- The fields of a `battery.Battery` the program reads. -/
structure Battery where
  State : State
  Current : F64
  Full : F64

/-- The `error` returned by `battery.GetAll`: `nil`, a fatal error, the list of
per-battery errors (`none` is a `nil` slot), or an error of another type. -/
inductive BatteryError
  | nil
  | ErrFatal
  | Errors (errs : List (Option String))
  | other

/-- The type assertion `batteryError.(battery.Errors)`. -/
def BatteryError.asErrors : BatteryError → Option (List (Option String))
  | .Errors errs => some errs
  | _ => Option.none

/-- The type assertion `batteryError.(battery.ErrFatal)`, second result. -/
def BatteryError.isFatal : BatteryError → Bool
  | .ErrFatal => true
  | _ => false

/-- The `for i, battery := range batteries` loop of `getBatteryUsage`, from
index `i` on, threading `(batteryCharge, batteryState)`. `none` is the runtime
panic of indexing `batteryErrors[i]` out of range. -/
def batteryLoop (batteryErrors : Option (List (Option String))) :
    List Battery → Nat → F64 × String → Option (F64 × String)
  | [], _, acc => some acc
  | battery :: rest, i, acc =>
    match batteryErrors with
    | some errs =>
      match errs.get? i with
      | Option.none => Option.none
      | some (some _) => batteryLoop batteryErrors rest (i + 1) acc
      | some Option.none =>
        batteryLoop batteryErrors rest (i + 1)
          (mathRound (F64.mul (F64.div battery.Current battery.Full) (F64.ofNat 100)),
            battery.State.String)
    | Option.none =>
      batteryLoop batteryErrors rest (i + 1)
        (mathRound (F64.mul (F64.div battery.Current battery.Full) (F64.ofNat 100)),
          battery.State.String)

/-- Return the battery percentage and state; the arguments are the two results
of `battery.GetAll()`. -/
def getBatteryUsage (batteries : List Battery) (batteryError : BatteryError) : Option String :=
  if !batteryError.isFatal && batteries.length != 0 then
    (batteryLoop batteryError.asErrors batteries 0 (F64.zero, "")).map
      (fun r => "Battery Left: " ++ ftos r.1 ++ "% (" ++ r.2 ++ ")\n")
  else some ""

/-- The `for i := range cpuCoreUsage` loop of `getCpuUsage`: `n` iterations are
left, `i` is the index, the accumulator is `cpuUsage`. -/
def cpuLoop (cpuCoreUsage : List F64) : Nat → Nat → F64 → F64
  | 0, _, cpuUsage => cpuUsage
  | n + 1, i, cpuUsage =>
    cpuLoop cpuCoreUsage n (i + 1) (F64.add cpuUsage (cpuCoreUsage.getD i F64.zero))

/-- Return the average CPU load and the amount of CPU cores; the arguments are
the two results of `cpu.Percent(0, true)` (`err = none` is `nil`). -/
def getCpuUsage (cpuCoreUsage : List F64) (err : Option String) : String :=
  match err with
  | Option.none =>
    "CPU Usage: " ++
      ftos (mathRound (F64.div (cpuLoop cpuCoreUsage cpuCoreUsage.length 0 F64.zero)
        (F64.ofInt (cpuCoreUsage.length : Int)))) ++
      "% (" ++ itos (cpuCoreUsage.length : Int) ++ " cores)\n"
  | some _ => "CPU Usage: " ++ ftos F64.zero ++ "% (" ++ itos 0 ++ " cores)\n"

/-- Return the memory usage as a percentage with the GB amounts; the arguments
are the fields `Used`, `Total` and `UsedPercent` of `mem.VirtualMemory()`. -/
def getMemoryUsage (Used Total : Nat) (UsedPercent : F64) : String :=
  "Memory Usage: " ++ ftos (mathRound UsedPercent) ++ "% (" ++ ftos (formatBytesAsGB Used) ++
    "GB/" ++ ftos (formatBytesAsGB Total) ++ "GB)\n"

/-! ## The event loop of `main` -/

/-- State of the event loop. -/
inductive LoopState
  | Running
  | Terminated
deriving DecidableEq

/-- What one `select` of the loop receives: a timer tick or a UI event. -/
inductive LoopInput
  | tick
  | event (ID : String)
deriving DecidableEq

/-- One iteration of the `for { select { ... } }` loop: the next state and the
number of `draw()` calls the iteration makes. -/
def step : LoopState → LoopInput → LoopState × Nat
  | .Terminated, _ => (.Terminated, 0)
  | .Running, .tick => (.Running, 1)
  | .Running, .event ID => if ID = "q" ∨ ID = "<C-c>" then (.Terminated, 0) else (.Running, 0)

/-- Run the loop over the inputs it receives, counting `draw()` calls. -/
def runLoop : LoopState → Nat → List LoopInput → LoopState × Nat
  | s, draws, [] => (s, draws)
  | .Terminated, draws, _ :: _ => (.Terminated, draws)
  | .Running, draws, i :: rest =>
    runLoop (step .Running i).1 (draws + (step .Running i).2) rest

/-- The body of `main` after a successful `ui.Init()`: one `draw()`, then the loop. -/
def mainLoop (inputs : List LoopInput) : LoopState × Nat := runLoop .Running 1 inputs

/-- Whether an input is the quit event. -/
def isQuit : LoopInput → Bool
  | .event ID => decide (ID = "q" ∨ ID = "<C-c>")
  | .tick => false

/-- Whether an input is a timer tick. -/
def isTick : LoopInput → Bool
  | .tick => true
  | .event _ => false

/-! ## Exact values and order, used to state numeric properties -/

/-- The exact rational value of a finite float (0 for NaN and the infinities). -/
def F64.toRat : F64 → ℚ
  | .fin neg m e => if neg then -((m : ℚ) * (2 : ℚ) ^ e) else (m : ℚ) * (2 : ℚ) ^ e
  | _ => 0

/-- Order between two non-negative floats (finite or `+Inf`), by exact value. -/
def NNLe (x y : F64) : Prop :=
  (y = .inf false ∧ (x = .inf false ∨ ∃ m e, x = .fin false m e)) ∨
  (∃ m1 e1 m2 e2, x = .fin false m1 e1 ∧ y = .fin false m2 e2 ∧
    (m1 : ℚ) * (2 : ℚ) ^ e1 ≤ (m2 : ℚ) * (2 : ℚ) ^ e2)

/-- The value `binadeMant * 2^binadeExp` that `roundPos` encodes (or turns into
an infinity when it reaches `2^1024`). -/
def preVal (num den : Nat) : ℚ := (binadeMant num den : ℚ) * (2 : ℚ) ^ (binadeExp num den)

/-- Canonical significand and exponent of a finite binary64 value. -/
def Canon (m : Nat) (e : Int) : Prop :=
  m < 2 ^ 53 ∧ -1074 ≤ e ∧ e ≤ 971 ∧ (-1074 < e → 2 ^ 52 ≤ m)

/-- A non-negative float in canonical form, or `+Inf`. -/
def Good (x : F64) : Prop :=
  x = .inf false ∨ ∃ m e, x = .fin false m e ∧ Canon m e

/-! ## Definitions that follow the specification's words -/

/-- Spec: the decimal text of a whole number. -/
def wholeText (n : Nat) : String := String.mk (natDigits n)

/-- Spec, CPU formatter: the mean of whole-number samples rounded to the
nearest integer, halves away from zero. -/
def roundedMean (ns : List Nat) : Nat := (2 * ns.sum + ns.length) / (2 * ns.length)

/-- Spec, battery formatter: `p` is a nearest integer to `current / full * 100`
(either neighbour when the percentage lies exactly halfway). -/
def IsNearestPercent (current full p : Nat) : Prop :=
  2 * p * full ≤ 200 * current + full ∧ 200 * current ≤ 2 * p * full + full

/-- Spec, memory formatter: a byte count divided by 1,000,000,000 and "rounded
to one decimal place", as a number of tenths of a gigabyte (halves rounded up). -/
def gbTenths (value : Nat) : Nat := (2 * value + 100000000) / 200000000

/-- Spec, memory formatter: the text of `k` tenths, "whole numbers printed
without a fractional part": 85 reads "8.5", 160 reads "16". -/
def tenthsText (k : Nat) : String :=
  String.mk (natDigits (k / 10) ++ (if k % 10 = 0 then [] else ['.', digitChar (k % 10)]))

/-- Spec, battery formatter: the per-device error slot of battery `i`.
`some none` is a null slot (also when the enumeration error is not a list of
per-device errors), `some (some e)` a non-null one, `none` a missing slot. -/
def slotAt (batteryErrors : Option (List (Option String))) (i : Nat) : Option (Option String) :=
  match batteryErrors with
  | some errs => errs.get? i
  | Option.none => some Option.none

end Mintop

namespace Mintop

set_option maxRecDepth 1000000

/-! ## Round-to-nearest: specification, monotonicity, exactness -/


theorem scale2_den_pos (n d : Nat) (e : Int) (hd : 0 < d) : 0 < (scale2 n d e).2 := by
  unfold scale2
  split
  · exact Nat.mul_pos hd (Nat.pos_pow_of_pos _ (by decide))
  · exact hd

theorem scale2_val (n d : Nat) (e : Int) (hd : 0 < d) :
    ((scale2 n d e).1 : ℚ) / ((scale2 n d e).2 : ℚ) = (n : ℚ) / d * (2 : ℚ) ^ (-e) := by
  have hd' : (d : ℚ) ≠ 0 := by exact_mod_cast hd.ne'
  unfold scale2
  split
  · rename_i h
    obtain ⟨k, rfl⟩ := Int.eq_ofNat_of_zero_le h
    simp only [Int.toNat_ofNat, Nat.cast_mul, Nat.cast_pow, Nat.cast_ofNat, zpow_neg, zpow_natCast]
    field_simp
  · rename_i h
    obtain ⟨k, hk⟩ := Int.eq_ofNat_of_zero_le (show 0 ≤ -e by omega)
    rw [hk]
    simp only [Int.toNat_ofNat, Nat.cast_mul, Nat.cast_pow, Nat.cast_ofNat, zpow_natCast]
    field_simp

theorem findExp_spec (fuel : Nat) (e0 : Int) (n d : Nat) (hd : 0 < d) :
    e0 ≤ findExp fuel e0 n d ∧ findExp fuel e0 n d ≤ e0 + fuel ∧
    (findExp fuel e0 n d < e0 + fuel → (n : ℚ) / d < (2 : ℚ) ^ (53 + findExp fuel e0 n d)) ∧
    (∀ e', e0 ≤ e' → e' < findExp fuel e0 n d → (2 : ℚ) ^ (53 + e') ≤ (n : ℚ) / d) := by
  induction fuel generalizing e0 with
  | zero =>
    simp only [findExp]
    refine ⟨le_refl _, by simp, fun h => absurd h (by simp), fun e' h1 h2 => absurd h2 (by omega)⟩
  | succ fuel ih =>
    have hpos := scale2_den_pos n d e0 hd
    have hval := scale2_val n d e0 hd
    have hcmp : ((scale2 n d e0).1 < (scale2 n d e0).2 * 2 ^ 53) ↔
        (n : ℚ) / d < (2 : ℚ) ^ (53 + e0) := by
      have hp : (0 : ℚ) < ((scale2 n d e0).2 : ℚ) := by exact_mod_cast hpos
      have h2 : (0 : ℚ) < (2 : ℚ) ^ e0 := by positivity
      rw [← @Nat.cast_lt ℚ]
      push_cast
      rw [← div_lt_iff₀' hp, hval, zpow_add₀ (by norm_num : (2 : ℚ) ≠ 0), zpow_neg,
        ← div_eq_mul_inv, div_lt_iff₀ h2]
      norm_num
    simp only [findExp]
    split
    · rename_i h
      refine ⟨le_refl _, by push_cast; omega, fun _ => hcmp.mp h, fun e' h1 h2 => absurd h2 (by omega)⟩
    · rename_i h
      obtain ⟨i1, i2, i3, i4⟩ := ih (e0 + 1)
      refine ⟨by omega, by push_cast; omega, fun hlt => i3 (by push_cast at hlt; omega), ?_⟩
      intro e' h1 h2
      by_cases he : e' = e0
      · subst he
        exact not_lt.mp (fun hh => h (hcmp.mpr hh))
      · exact i4 e' (by omega) h2

theorem roundHalfEven_spec (n d : Nat) (hd : 0 < d) :
    |(roundHalfEven n d : ℚ) - (n : ℚ) / d| < 1 / 2 ∨
    (|(roundHalfEven n d : ℚ) - (n : ℚ) / d| = 1 / 2 ∧ roundHalfEven n d % 2 = 0) := by
  have hd' : (0 : ℚ) < d := by exact_mod_cast hd
  have hdiv : (n : ℚ) / d = (n / d : ℕ) + (n % d : ℕ) / (d : ℚ) := by
    have h := Nat.div_add_mod n d
    have h2 : (n : ℚ) = (d : ℚ) * (n / d : ℕ) + (n % d : ℕ) := by exact_mod_cast h.symm
    rw [h2]; field_simp; ring
  have hr : (n % d : ℕ) < d := Nat.mod_lt n hd
  have hrq : ((n % d : ℕ) : ℚ) < d := by exact_mod_cast hr
  have hr0 : (0 : ℚ) ≤ ((n % d : ℕ) : ℚ) := by positivity
  unfold roundHalfEven
  split
  · rename_i h
    left
    have hq : (2 : ℚ) * ((n % d : ℕ) : ℚ) < d := by exact_mod_cast h
    rw [hdiv, abs_lt]
    constructor
    · have : ((n % d : ℕ) : ℚ) / d < 1 / 2 := by rw [div_lt_iff₀ hd']; linarith
      linarith
    · have : (0 : ℚ) ≤ ((n % d : ℕ) : ℚ) / d := by positivity
      linarith
  · rename_i h
    split
    · rename_i h2
      left
      have hq : (d : ℚ) < 2 * ((n % d : ℕ) : ℚ) := by exact_mod_cast h2
      rw [hdiv, abs_lt]
      push_cast
      constructor
      · have : ((n % d : ℕ) : ℚ) / d < 1 := by rw [div_lt_iff₀ hd']; linarith
        linarith
      · have : 1 / 2 < ((n % d : ℕ) : ℚ) / d := by rw [lt_div_iff₀ hd']; linarith
        linarith
    · rename_i h2
      have heq : 2 * (n % d) = d := by omega
      have hq : (2 : ℚ) * ((n % d : ℕ) : ℚ) = d := by exact_mod_cast heq
      have hhalf : ((n % d : ℕ) : ℚ) / d = 1 / 2 := by rw [div_eq_iff hd'.ne']; linarith
      right
      split
      · rename_i h3
        refine ⟨?_, h3⟩
        rw [hdiv, hhalf]
        norm_num
      · rename_i h3
        refine ⟨?_, by omega⟩
        rw [hdiv, hhalf]
        push_cast
        norm_num

theorem roundHalfEven_mono (n1 d1 n2 d2 : Nat) (h1 : 0 < d1) (h2 : 0 < d2)
    (h : (n1 : ℚ) / d1 ≤ (n2 : ℚ) / d2) : roundHalfEven n1 d1 ≤ roundHalfEven n2 d2 := by
  by_contra hlt
  have hlt' : roundHalfEven n2 d2 + 1 ≤ roundHalfEven n1 d1 := by omega
  have hq : ((roundHalfEven n2 d2 : ℕ) : ℚ) + 1 ≤ (roundHalfEven n1 d1 : ℚ) := by exact_mod_cast hlt'
  rcases roundHalfEven_spec n1 d1 h1 with s1 | ⟨s1, p1⟩ <;>
  rcases roundHalfEven_spec n2 d2 h2 with s2 | ⟨s2, p2⟩
  · rw [abs_lt] at s1 s2; linarith [s1.1, s1.2, s2.1, s2.2]
  · rw [abs_lt] at s1; have := abs_le.mp s2.le; linarith [s1.1, s1.2, this.1, this.2]
  · rw [abs_lt] at s2; have := abs_le.mp s1.le; linarith [s2.1, s2.2, this.1, this.2]
  · have a1 := abs_le.mp s1.le
    have a2 := abs_le.mp s2.le
    have heq : (roundHalfEven n1 d1 : ℚ) = (roundHalfEven n2 d2 : ℚ) + 1 := by
      linarith [a1.1, a1.2, a2.1, a2.2]
    have heq' : roundHalfEven n1 d1 = roundHalfEven n2 d2 + 1 := by exact_mod_cast heq
    omega

theorem roundHalfEven_nat (k : Nat) : roundHalfEven k 1 = k := by
  simp [roundHalfEven, Nat.mod_one]

theorem roundHalfEven_le (n d k : Nat) (hd : 0 < d) (h : (n : ℚ) / d ≤ k) :
    roundHalfEven n d ≤ k := by
  have := roundHalfEven_mono n d k 1 hd Nat.one_pos (by simpa using h)
  rwa [roundHalfEven_nat] at this

theorem roundHalfEven_ge (n d k : Nat) (hd : 0 < d) (h : (k : ℚ) ≤ (n : ℚ) / d) :
    k ≤ roundHalfEven n d := by
  have := roundHalfEven_mono k 1 n d Nat.one_pos hd (by simpa using h)
  rwa [roundHalfEven_nat] at this

theorem binadeExp_spec (n d : Nat) (hd : 0 < d) :
    -1074 ≤ binadeExp n d ∧ binadeExp n d ≤ 972 ∧
    (binadeExp n d < 972 → (n : ℚ) / d < (2 : ℚ) ^ (53 + binadeExp n d)) ∧
    (-1074 < binadeExp n d → (2 : ℚ) ^ (52 + binadeExp n d) ≤ (n : ℚ) / d) := by
  obtain ⟨h1, h2, h3, h4⟩ := findExp_spec 2046 (-1074) n d hd
  refine ⟨h1, by unfold binadeExp; push_cast at h2; omega, fun h => h3 (by unfold binadeExp at h; push_cast; omega), ?_⟩
  intro h
  have := h4 (binadeExp n d - 1) (by omega) (by unfold binadeExp; omega)
  have he : 53 + (binadeExp n d - 1) = 52 + binadeExp n d := by ring
  rwa [he] at this

theorem binadeExp_mono (n1 d1 n2 d2 : Nat) (h1 : 0 < d1) (h2 : 0 < d2)
    (h : (n1 : ℚ) / d1 ≤ (n2 : ℚ) / d2) : binadeExp n1 d1 ≤ binadeExp n2 d2 := by
  by_contra hlt
  obtain ⟨a1, a2, a3, a4⟩ := binadeExp_spec n1 d1 h1
  obtain ⟨b1, b2, b3, b4⟩ := binadeExp_spec n2 d2 h2
  have hlt' : binadeExp n2 d2 < binadeExp n1 d1 := by omega
  have u := b3 (by omega)
  have l := a4 (by omega)
  have hpow : (2 : ℚ) ^ (53 + binadeExp n2 d2) ≤ (2 : ℚ) ^ (52 + binadeExp n1 d1) :=
    zpow_le_zpow_right₀ (by norm_num) (by omega)
  linarith

theorem binadeMant_scaled (n d : Nat) (hd : 0 < d) :
    ((scale2 n d (binadeExp n d)).1 : ℚ) / ((scale2 n d (binadeExp n d)).2 : ℚ) =
      (n : ℚ) / d * (2 : ℚ) ^ (-(binadeExp n d)) := scale2_val n d _ hd

theorem binadeMant_le (n d : Nat) (hd : 0 < d) (h : binadeExp n d < 972) :
    binadeMant n d ≤ 2 ^ 53 := by
  obtain ⟨a1, a2, a3, a4⟩ := binadeExp_spec n d hd
  apply roundHalfEven_le _ _ _ (scale2_den_pos n d _ hd)
  rw [binadeMant_scaled n d hd]
  have := a3 h
  rw [zpow_add₀ (by norm_num : (2 : ℚ) ≠ 0)] at this
  rw [zpow_neg, ← div_eq_mul_inv, div_le_iff₀ (by positivity)]
  push_cast
  linarith

theorem binadeMant_ge (n d : Nat) (hd : 0 < d) (h : -1074 < binadeExp n d) :
    2 ^ 52 ≤ binadeMant n d := by
  obtain ⟨a1, a2, a3, a4⟩ := binadeExp_spec n d hd
  apply roundHalfEven_ge _ _ _ (scale2_den_pos n d _ hd)
  rw [binadeMant_scaled n d hd]
  have := a4 h
  rw [zpow_add₀ (by norm_num : (2 : ℚ) ≠ 0)] at this
  rw [zpow_neg, ← div_eq_mul_inv, le_div_iff₀ (by positivity)]
  push_cast
  linarith

theorem preVal_mono (n1 d1 n2 d2 : Nat) (h1 : 0 < d1) (h2 : 0 < d2)
    (h : (n1 : ℚ) / d1 ≤ (n2 : ℚ) / d2) : preVal n1 d1 ≤ preVal n2 d2 := by
  unfold preVal
  have he := binadeExp_mono n1 d1 n2 d2 h1 h2 h
  obtain ⟨a1, a2, a3, a4⟩ := binadeExp_spec n1 d1 h1
  obtain ⟨b1, b2, b3, b4⟩ := binadeExp_spec n2 d2 h2
  rcases he.lt_or_eq with hlt | heq
  · have hm1 : (binadeMant n1 d1 : ℚ) ≤ 2 ^ 53 := by
      exact_mod_cast binadeMant_le n1 d1 h1 (by omega)
    have hm2 : (2 : ℚ) ^ 52 ≤ (binadeMant n2 d2 : ℚ) := by
      exact_mod_cast binadeMant_ge n2 d2 h2 (by omega)
    have hp1 : (0 : ℚ) < (2 : ℚ) ^ (binadeExp n1 d1) := by positivity
    have hp2 : (0 : ℚ) < (2 : ℚ) ^ (binadeExp n2 d2) := by positivity
    have hpow : (2 : ℚ) ^ (53 + binadeExp n1 d1) ≤ (2 : ℚ) ^ (52 + binadeExp n2 d2) :=
      zpow_le_zpow_right₀ (by norm_num) (by omega)
    rw [zpow_add₀ (by norm_num : (2 : ℚ) ≠ 0), zpow_add₀ (by norm_num : (2 : ℚ) ≠ 0)] at hpow
    calc (binadeMant n1 d1 : ℚ) * (2 : ℚ) ^ (binadeExp n1 d1)
        ≤ 2 ^ 53 * (2 : ℚ) ^ (binadeExp n1 d1) := by
          exact mul_le_mul_of_nonneg_right hm1 hp1.le
      _ ≤ 2 ^ 52 * (2 : ℚ) ^ (binadeExp n2 d2) := by exact_mod_cast hpow
      _ ≤ (binadeMant n2 d2 : ℚ) * (2 : ℚ) ^ (binadeExp n2 d2) :=
          mul_le_mul_of_nonneg_right hm2 hp2.le
  · have hm : binadeMant n1 d1 ≤ binadeMant n2 d2 := by
      unfold binadeMant
      apply roundHalfEven_mono _ _ _ _ (scale2_den_pos _ _ _ h1) (scale2_den_pos _ _ _ h2)
      rw [scale2_val _ _ _ h1, scale2_val _ _ _ h2, heq]
      exact mul_le_mul_of_nonneg_right h (by positivity)
    rw [heq]
    exact mul_le_mul_of_nonneg_right (by exact_mod_cast hm) (by positivity)

theorem roundPos_cases (neg : Bool) (n d : Nat) (hd : 0 < d) :
    ((2 : ℚ) ^ (1024 : ℤ) ≤ preVal n d ∧ roundPos neg n d = .inf neg) ∨
    (preVal n d < (2 : ℚ) ^ (1024 : ℤ) ∧ ∃ m e, roundPos neg n d = .fin neg m e ∧
      (m : ℚ) * (2 : ℚ) ^ e = preVal n d ∧ Canon m e) := by
  obtain ⟨a1, a2, a3, a4⟩ := binadeExp_spec n d hd
  have hle := binadeMant_le n d hd
  have hge := binadeMant_ge n d hd
  unfold roundPos preVal
  have hpe : (0 : ℚ) < (2 : ℚ) ^ (binadeExp n d) := by positivity
  by_cases hM : binadeMant n d = 2 ^ 53
  · rw [if_pos hM]
    by_cases he : 971 < binadeExp n d + 1
    · rw [if_pos he]
      left
      refine ⟨?_, rfl⟩
      rw [hM]
      have : (2 : ℚ) ^ (1024 : ℤ) = 2 ^ 53 * (2 : ℚ) ^ (971 : ℤ) := by norm_num
      rw [this]
      push_cast
      exact mul_le_mul_of_nonneg_left (zpow_le_zpow_right₀ (by norm_num) (by omega)) (by norm_num)
    · rw [if_neg he]
      right
      have hv : ((2 ^ 52 : ℕ) : ℚ) * (2 : ℚ) ^ (binadeExp n d + 1) =
          (binadeMant n d : ℚ) * (2 : ℚ) ^ (binadeExp n d) := by
        rw [hM, zpow_add₀ (by norm_num : (2 : ℚ) ≠ 0)]
        push_cast
        ring
      refine ⟨?_, 2 ^ 52, binadeExp n d + 1, rfl, hv, by norm_num, by omega, by omega,
        fun _ => le_refl _⟩
      rw [← hv]
      have : (2 : ℚ) ^ (1024 : ℤ) = 2 ^ 52 * (2 : ℚ) ^ (972 : ℤ) := by norm_num
      rw [this]
      push_cast
      exact mul_lt_mul_of_pos_left (zpow_lt_zpow_right₀ (by norm_num) (by omega)) (by norm_num)
  · rw [if_neg hM]
    by_cases he : 971 < binadeExp n d
    · rw [if_pos he]
      left
      refine ⟨?_, rfl⟩
      have hm : (2 : ℚ) ^ 52 ≤ (binadeMant n d : ℚ) := by exact_mod_cast hge (by omega)
      have h972 : binadeExp n d = 972 := by omega
      rw [h972]
      have : (2 : ℚ) ^ (1024 : ℤ) = 2 ^ 52 * (2 : ℚ) ^ (972 : ℤ) := by norm_num
      rw [this]
      exact mul_le_mul_of_nonneg_right hm (by positivity)
    · rw [if_neg he]
      right
      have hlt : binadeMant n d < 2 ^ 53 := lt_of_le_of_ne (hle (by omega)) hM
      refine ⟨?_, binadeMant n d, binadeExp n d, rfl, rfl, hlt, a1, by omega, hge⟩
      have hm : (binadeMant n d : ℚ) < 2 ^ 53 := by exact_mod_cast hlt
      have : (2 : ℚ) ^ (1024 : ℤ) = 2 ^ 53 * (2 : ℚ) ^ (971 : ℤ) := by norm_num
      rw [this]
      calc (binadeMant n d : ℚ) * (2 : ℚ) ^ (binadeExp n d)
          < 2 ^ 53 * (2 : ℚ) ^ (binadeExp n d) := mul_lt_mul_of_pos_right hm hpe
        _ ≤ 2 ^ 53 * (2 : ℚ) ^ (971 : ℤ) :=
          mul_le_mul_of_nonneg_left (zpow_le_zpow_right₀ (by norm_num) (by omega)) (by norm_num)

theorem roundPos_good (n d : Nat) (hd : 0 < d) : Good (roundPos false n d) := by
  rcases roundPos_cases false n d hd with ⟨_, h⟩ | ⟨_, m, e, h, _, hc⟩
  · exact Or.inl h
  · exact Or.inr ⟨m, e, h, hc⟩

theorem NNLe_fin (m1 m2 : Nat) (e1 e2 : Int)
    (h : (m1 : ℚ) * (2 : ℚ) ^ e1 ≤ (m2 : ℚ) * (2 : ℚ) ^ e2) :
    NNLe (.fin false m1 e1) (.fin false m2 e2) :=
  Or.inr ⟨m1, e1, m2, e2, rfl, rfl, h⟩

theorem NNLe_fin_le (m1 m2 : Nat) (e1 e2 : Int)
    (h : NNLe (.fin false m1 e1) (.fin false m2 e2)) :
    (m1 : ℚ) * (2 : ℚ) ^ e1 ≤ (m2 : ℚ) * (2 : ℚ) ^ e2 := by
  rcases h with ⟨h, _⟩ | ⟨a1, b1, a2, b2, h1, h2, h3⟩
  · exact absurd h (by simp)
  · simp only [F64.fin.injEq, true_and] at h1 h2
    obtain ⟨rfl, rfl⟩ := h1
    obtain ⟨rfl, rfl⟩ := h2
    exact h3

theorem NNLe_good_inf (x : F64) (h : Good x) : NNLe x (.inf false) := by
  rcases h with h | ⟨m, e, h, _⟩
  · exact Or.inl ⟨rfl, Or.inl h⟩
  · exact Or.inl ⟨rfl, Or.inr ⟨m, e, h⟩⟩

theorem roundPos_mono (n1 d1 n2 d2 : Nat) (h1 : 0 < d1) (h2 : 0 < d2)
    (h : (n1 : ℚ) / d1 ≤ (n2 : ℚ) / d2) :
    NNLe (roundPos false n1 d1) (roundPos false n2 d2) := by
  have hv := preVal_mono n1 d1 n2 d2 h1 h2 h
  rcases roundPos_cases false n2 d2 h2 with ⟨v2, r2⟩ | ⟨v2, m2, e2, r2, w2, _⟩
  · rw [r2]
    exact NNLe_good_inf _ (roundPos_good n1 d1 h1)
  · rcases roundPos_cases false n1 d1 h1 with ⟨v1, r1⟩ | ⟨v1, m1, e1, r1, w1, _⟩
    · exact absurd (lt_of_le_of_lt (le_trans v1 hv) v2) (lt_irrefl _)
    · rw [r1, r2]
      exact NNLe_fin _ _ _ _ (by rw [w1, w2]; exact hv)

theorem alignedInt_cast (m : Nat) (e base : Int) (h : base ≤ e) :
    ((alignedInt false m e base : ℤ) : ℚ) = (m : ℚ) * (2 : ℚ) ^ e * (2 : ℚ) ^ (-base) := by
  obtain ⟨k, hk⟩ := Int.eq_ofNat_of_zero_le (show 0 ≤ e - base by omega)
  have he : e = base + k := by omega
  simp only [alignedInt, Bool.false_eq_true, if_false, hk, Int.toNat_ofNat]
  rw [he, zpow_add₀ (by norm_num : (2 : ℚ) ≠ 0), zpow_neg, zpow_natCast]
  push_cast
  field_simp
  ring

theorem le_of_NNLe (x y : F64) (h : NNLe x y) : F64.le x y = true := by
  rcases h with ⟨hy, hx | ⟨m, e, hx⟩⟩ | ⟨m1, e1, m2, e2, hx, hy, h'⟩
  · rw [hx, hy]; rfl
  · rw [hx, hy]; rfl
  · rw [hx, hy]
    simp only [F64.le, decide_eq_true_eq]
    have c1 := alignedInt_cast m1 e1 (min e1 e2) (min_le_left _ _)
    have c2 := alignedInt_cast m2 e2 (min e1 e2) (min_le_right _ _)
    have hq : ((alignedInt false m1 e1 (min e1 e2) : ℤ) : ℚ) ≤
        ((alignedInt false m2 e2 (min e1 e2) : ℤ) : ℚ) := by
      rw [c1, c2]
      exact mul_le_mul_of_nonneg_right h' (by positivity)
    exact_mod_cast hq

theorem roundHalfEven_exact (n d m : Nat) (hd : 0 < d) (h : (n : ℚ) / d = m) :
    roundHalfEven n d = m :=
  le_antisymm (roundHalfEven_le n d m hd h.le) (roundHalfEven_ge n d m hd h.ge)

theorem roundPos_exact (neg : Bool) (n d m : Nat) (e : Int) (hd : 0 < d) (hc : Canon m e)
    (hq : (n : ℚ) / d = (m : ℚ) * (2 : ℚ) ^ e) : roundPos neg n d = .fin neg m e := by
  obtain ⟨c1, c2, c3, c4⟩ := hc
  obtain ⟨a1, a2, a3, a4⟩ := binadeExp_spec n d hd
  have hpe : (0 : ℚ) < (2 : ℚ) ^ e := by positivity
  have hm : (m : ℚ) < 2 ^ 53 := by exact_mod_cast c1
  have hup : (n : ℚ) / d < (2 : ℚ) ^ (53 + e) := by
    rw [hq, zpow_add₀ (by norm_num : (2 : ℚ) ≠ 0)]
    exact_mod_cast mul_lt_mul_of_pos_right hm hpe
  have hE : binadeExp n d = e := by
    apply le_antisymm
    · by_contra hgt
      have l := a4 (by omega)
      have hpow : (2 : ℚ) ^ (53 + e) ≤ (2 : ℚ) ^ (52 + binadeExp n d) :=
        zpow_le_zpow_right₀ (by norm_num) (by omega)
      linarith
    · by_contra hlt
      have u := a3 (by omega)
      have hm2 : (2 : ℚ) ^ 52 ≤ (m : ℚ) := by exact_mod_cast c4 (by omega)
      have hlow : (2 : ℚ) ^ (52 + e) ≤ (n : ℚ) / d := by
        rw [hq, zpow_add₀ (by norm_num : (2 : ℚ) ≠ 0)]
        exact_mod_cast mul_le_mul_of_nonneg_right hm2 hpe.le
      have hpow : (2 : ℚ) ^ (53 + binadeExp n d) ≤ (2 : ℚ) ^ (52 + e) :=
        zpow_le_zpow_right₀ (by norm_num) (by omega)
      linarith
  have hM : binadeMant n d = m := by
    unfold binadeMant
    apply roundHalfEven_exact _ _ _ (scale2_den_pos _ _ _ hd)
    rw [scale2_val _ _ _ hd, hE, hq, zpow_neg]
    field_simp
  unfold roundPos
  rw [hM, hE, if_neg (by omega), if_neg (by omega)]

theorem mathRound_eq (m : Nat) (e : Int) (hc : Canon m e) :
    mathRound (.fin false m e) = roundPos false ⌊(m : ℚ) * (2 : ℚ) ^ e + 1 / 2⌋₊ 1 := by
  by_cases he : 0 ≤ e
  · obtain ⟨k, rfl⟩ := Int.eq_ofNat_of_zero_le he
    have hfl : ⌊(m : ℚ) * (2 : ℚ) ^ (k : ℤ) + 1 / 2⌋₊ = m * 2 ^ k := by
      rw [Nat.floor_eq_iff (by positivity)]
      rw [zpow_natCast]
      push_cast
      constructor <;> linarith
    rw [hfl]
    simp only [mathRound, he, if_true]
    symm
    apply roundPos_exact false _ 1 m _ Nat.one_pos hc
    rw [zpow_natCast]
    push_cast
    simp
  · obtain ⟨k, hk⟩ := Int.eq_ofNat_of_zero_le (show 0 ≤ -e by omega)
    have hek : e = -(k : ℤ) := by omega
    have hpk : (0 : ℚ) < (2 : ℚ) ^ k := by positivity
    have hv : (m : ℚ) * (2 : ℚ) ^ e = (m / 2 ^ k : ℕ) + ((m % 2 ^ k : ℕ) : ℚ) / (2 : ℚ) ^ k := by
      have h := Nat.div_add_mod m (2 ^ k)
      have h2 : (m : ℚ) = (2 : ℚ) ^ k * (m / 2 ^ k : ℕ) + (m % 2 ^ k : ℕ) := by exact_mod_cast h.symm
      rw [hek, zpow_neg, zpow_natCast]
      nth_rewrite 1 [h2]
      field_simp
      ring
    have hr : (m % 2 ^ k : ℕ) < 2 ^ k := Nat.mod_lt _ (Nat.pos_pow_of_pos _ (by decide))
    have hrq : ((m % 2 ^ k : ℕ) : ℚ) / (2 : ℚ) ^ k < 1 := by
      rw [div_lt_one hpk]; exact_mod_cast hr
    have hr0 : (0 : ℚ) ≤ ((m % 2 ^ k : ℕ) : ℚ) / (2 : ℚ) ^ k := by positivity
    simp only [mathRound, he, if_false, hk, Int.toNat_ofNat]
    split
    · rename_i h
      have hh : (1 : ℚ) / 2 ≤ ((m % 2 ^ k : ℕ) : ℚ) / (2 : ℚ) ^ k := by
        rw [le_div_iff₀ hpk]
        have : ((2 ^ k : ℕ) : ℚ) ≤ ((2 * (m % 2 ^ k) : ℕ) : ℚ) := by exact_mod_cast h
        push_cast at this
        linarith
      have hfl : ⌊(m : ℚ) * (2 : ℚ) ^ e + 1 / 2⌋₊ = m / 2 ^ k + 1 := by
        rw [Nat.floor_eq_iff (by positivity), hv]
        push_cast
        constructor <;> linarith
      rw [hfl]
    · rename_i h
      have hh : ((m % 2 ^ k : ℕ) : ℚ) / (2 : ℚ) ^ k < 1 / 2 := by
        rw [div_lt_iff₀ hpk]
        have : ((2 * (m % 2 ^ k) : ℕ) : ℚ) < ((2 ^ k : ℕ) : ℚ) := by exact_mod_cast not_le.mp h
        push_cast at this
        linarith
      have hfl : ⌊(m : ℚ) * (2 : ℚ) ^ e + 1 / 2⌋₊ = m / 2 ^ k := by
        rw [Nat.floor_eq_iff (by positivity), hv]
        constructor <;> linarith
      rw [hfl]

theorem mathRound_good (x : F64) (h : Good x) : Good (mathRound x) := by
  rcases h with h | ⟨m, e, h, hc⟩
  · rw [h]; exact Or.inl rfl
  · rw [h, mathRound_eq m e hc]
    exact roundPos_good _ _ Nat.one_pos

theorem mathRound_mono (x y : F64) (hx : Good x) (hy : Good y) (h : NNLe x y) :
    NNLe (mathRound x) (mathRound y) := by
  rcases hy with hy | ⟨m2, e2, hy, hc2⟩
  · rw [hy]
    exact NNLe_good_inf _ (mathRound_good x hx)
  · rcases hx with hx | ⟨m1, e1, hx, hc1⟩
    · rw [hx, hy] at h
      rcases h with ⟨h, _⟩ | ⟨_, _, _, _, h, _⟩ <;> exact absurd h (by simp)
    · rw [hx, hy] at h ⊢
      have h' := NNLe_fin_le _ _ _ _ h
      rw [mathRound_eq m1 e1 hc1, mathRound_eq m2 e2 hc2]
      refine roundPos_mono _ 1 _ 1 Nat.one_pos Nat.one_pos ?_
      have : ⌊(m1 : ℚ) * (2 : ℚ) ^ e1 + 1 / 2⌋₊ ≤ ⌊(m2 : ℚ) * (2 : ℚ) ^ e2 + 1 / 2⌋₊ :=
        Nat.floor_mono (by linarith)
      simpa using (show ((⌊(m1 : ℚ) * (2 : ℚ) ^ e1 + 1 / 2⌋₊ : ℕ) : ℚ) ≤
        ((⌊(m2 : ℚ) * (2 : ℚ) ^ e2 + 1 / 2⌋₊ : ℕ) : ℚ) by exact_mod_cast this)

theorem div_const_fin (m mc : Nat) (e ec : Int) (hmc : mc ≠ 0) :
    F64.div (.fin false m e) (.fin false mc ec) =
      roundPos false (scale2 m mc (ec - e)).1 (scale2 m mc (ec - e)).2 := by
  simp [F64.div, hmc]

theorem div_const_good (x : F64) (mc : Nat) (ec : Int) (hmc : mc ≠ 0) (hx : Good x) :
    Good (F64.div x (.fin false mc ec)) := by
  rcases hx with hx | ⟨m, e, hx, _⟩
  · rw [hx]; exact Or.inl rfl
  · rw [hx, div_const_fin m mc e ec hmc]
    exact roundPos_good _ _ (scale2_den_pos _ _ _ (Nat.pos_of_ne_zero hmc))

theorem div_const_mono (x y : F64) (mc : Nat) (ec : Int) (hmc : mc ≠ 0) (hx : Good x)
    (h : NNLe x y) : NNLe (F64.div x (.fin false mc ec)) (F64.div y (.fin false mc ec)) := by
  have hpos := Nat.pos_of_ne_zero hmc
  have hmq : (0 : ℚ) < (mc : ℚ) := by exact_mod_cast hpos
  rcases h with ⟨hy, _⟩ | ⟨m1, e1, m2, e2, hx', hy, h'⟩
  · rw [hy]
    exact NNLe_good_inf _ (div_const_good x mc ec hmc hx)
  · rw [hx', hy, div_const_fin m1 mc e1 ec hmc, div_const_fin m2 mc e2 ec hmc]
    refine roundPos_mono _ _ _ _ (scale2_den_pos _ _ _ hpos) (scale2_den_pos _ _ _ hpos) ?_
    rw [scale2_val _ _ _ hpos, scale2_val _ _ _ hpos]
    have e1' : (2 : ℚ) ^ (-(ec - e1)) = (2 : ℚ) ^ e1 * (2 : ℚ) ^ (-ec) := by
      rw [← zpow_add₀ (by norm_num : (2 : ℚ) ≠ 0)]; congr 1; ring
    have e2' : (2 : ℚ) ^ (-(ec - e2)) = (2 : ℚ) ^ e2 * (2 : ℚ) ^ (-ec) := by
      rw [← zpow_add₀ (by norm_num : (2 : ℚ) ≠ 0)]; congr 1; ring
    rw [e1', e2']
    have hc : (0 : ℚ) < (2 : ℚ) ^ (-ec) / mc := by positivity
    calc (m1 : ℚ) / mc * ((2 : ℚ) ^ e1 * (2 : ℚ) ^ (-ec))
        = ((m1 : ℚ) * (2 : ℚ) ^ e1) * ((2 : ℚ) ^ (-ec) / mc) := by ring
      _ ≤ ((m2 : ℚ) * (2 : ℚ) ^ e2) * ((2 : ℚ) ^ (-ec) / mc) :=
          mul_le_mul_of_nonneg_right h' hc.le
      _ = (m2 : ℚ) / mc * ((2 : ℚ) ^ e2 * (2 : ℚ) ^ (-ec)) := by ring

theorem mul_const_fin (m mc : Nat) (e ec : Int) :
    F64.mul (.fin false m e) (.fin false mc ec) =
      roundPos false (scale2 (m * mc) 1 (-(e + ec))).1 (scale2 (m * mc) 1 (-(e + ec))).2 := by
  simp [F64.mul]

theorem mul_const_good (x : F64) (mc : Nat) (ec : Int) (hmc : mc ≠ 0) (hx : Good x) :
    Good (F64.mul x (.fin false mc ec)) := by
  rcases hx with hx | ⟨m, e, hx, _⟩
  · rw [hx]; simp [F64.mul, hmc, Good]
  · rw [hx, mul_const_fin m mc e ec]
    exact roundPos_good _ _ (scale2_den_pos _ _ _ Nat.one_pos)

theorem mul_const_mono (x y : F64) (mc : Nat) (ec : Int) (hmc : mc ≠ 0) (hx : Good x)
    (h : NNLe x y) : NNLe (F64.mul x (.fin false mc ec)) (F64.mul y (.fin false mc ec)) := by
  rcases h with ⟨hy, _⟩ | ⟨m1, e1, m2, e2, hx', hy, h'⟩
  · have hinf : F64.mul (.inf false) (.fin false mc ec) = .inf false := by simp [F64.mul, hmc]
    rw [hy, hinf]
    exact NNLe_good_inf _ (mul_const_good x mc ec hmc hx)
  · rw [hx', hy, mul_const_fin m1 mc e1 ec, mul_const_fin m2 mc e2 ec]
    refine roundPos_mono _ _ _ _ (scale2_den_pos _ _ _ Nat.one_pos)
      (scale2_den_pos _ _ _ Nat.one_pos) ?_
    rw [scale2_val _ _ _ Nat.one_pos, scale2_val _ _ _ Nat.one_pos]
    simp only [neg_neg, Nat.cast_mul, Nat.cast_one, div_one]
    rw [zpow_add₀ (by norm_num : (2 : ℚ) ≠ 0), zpow_add₀ (by norm_num : (2 : ℚ) ≠ 0)]
    have hc : (0 : ℚ) ≤ (mc : ℚ) * (2 : ℚ) ^ ec := by positivity
    calc (m1 : ℚ) * mc * ((2 : ℚ) ^ e1 * (2 : ℚ) ^ ec)
        = ((m1 : ℚ) * (2 : ℚ) ^ e1) * ((mc : ℚ) * (2 : ℚ) ^ ec) := by ring
      _ ≤ ((m2 : ℚ) * (2 : ℚ) ^ e2) * ((mc : ℚ) * (2 : ℚ) ^ ec) :=
          mul_le_mul_of_nonneg_right h' hc
      _ = (m2 : ℚ) * mc * ((2 : ℚ) ^ e2 * (2 : ℚ) ^ ec) := by ring


/-! ## Error bounds and the rounding of exact halves -/

theorem binadeExp_congr (n1 d1 n2 d2 : Nat) (h1 : 0 < d1) (h2 : 0 < d2)
    (h : (n1 : ℚ) / d1 = (n2 : ℚ) / d2) : binadeExp n1 d1 = binadeExp n2 d2 :=
  le_antisymm (binadeExp_mono _ _ _ _ h1 h2 h.le) (binadeExp_mono _ _ _ _ h2 h1 h.ge)

theorem binadeMant_congr (n1 d1 n2 d2 : Nat) (h1 : 0 < d1) (h2 : 0 < d2)
    (h : (n1 : ℚ) / d1 = (n2 : ℚ) / d2) : binadeMant n1 d1 = binadeMant n2 d2 := by
  have he := binadeExp_congr n1 d1 n2 d2 h1 h2 h
  have hs : ((scale2 n1 d1 (binadeExp n1 d1)).1 : ℚ) / ((scale2 n1 d1 (binadeExp n1 d1)).2 : ℚ) =
      ((scale2 n2 d2 (binadeExp n2 d2)).1 : ℚ) / ((scale2 n2 d2 (binadeExp n2 d2)).2 : ℚ) := by
    rw [scale2_val _ _ _ h1, scale2_val _ _ _ h2, he, h]
  unfold binadeMant
  exact le_antisymm
    (roundHalfEven_mono _ _ _ _ (scale2_den_pos _ _ _ h1) (scale2_den_pos _ _ _ h2) hs.le)
    (roundHalfEven_mono _ _ _ _ (scale2_den_pos _ _ _ h2) (scale2_den_pos _ _ _ h1) hs.ge)

theorem roundPos_congr (neg : Bool) (n1 d1 n2 d2 : Nat) (h1 : 0 < d1) (h2 : 0 < d2)
    (h : (n1 : ℚ) / d1 = (n2 : ℚ) / d2) : roundPos neg n1 d1 = roundPos neg n2 d2 := by
  unfold roundPos
  rw [binadeExp_congr n1 d1 n2 d2 h1 h2 h, binadeMant_congr n1 d1 n2 d2 h1 h2 h]

theorem preVal_err (n d : Nat) (hd : 0 < d) :
    |preVal n d - (n : ℚ) / d| ≤ (2 : ℚ) ^ (binadeExp n d) / 2 := by
  have hpe : (0 : ℚ) < (2 : ℚ) ^ (binadeExp n d) := by positivity
  have hs : |(binadeMant n d : ℚ) - (n : ℚ) / d * (2 : ℚ) ^ (-(binadeExp n d))| ≤ 1 / 2 := by
    have := roundHalfEven_spec (scale2 n d (binadeExp n d)).1 (scale2 n d (binadeExp n d)).2
      (scale2_den_pos _ _ _ hd)
    rw [scale2_val _ _ _ hd] at this
    rcases this with h | ⟨h, _⟩
    · exact h.le
    · exact h.le
  have heq : preVal n d - (n : ℚ) / d =
      ((binadeMant n d : ℚ) - (n : ℚ) / d * (2 : ℚ) ^ (-(binadeExp n d))) *
        (2 : ℚ) ^ (binadeExp n d) := by
    have hd' : (d : ℚ) ≠ 0 := by exact_mod_cast hd.ne'
    unfold preVal
    rw [zpow_neg]
    field_simp
    ring
  rw [heq, abs_mul, abs_of_pos hpe]
  calc |(binadeMant n d : ℚ) - (n : ℚ) / d * (2 : ℚ) ^ (-(binadeExp n d))| *
        (2 : ℚ) ^ (binadeExp n d)
      ≤ 1 / 2 * (2 : ℚ) ^ (binadeExp n d) := mul_le_mul_of_nonneg_right hs hpe.le
    _ = (2 : ℚ) ^ (binadeExp n d) / 2 := by ring

theorem preVal_rel (n d : Nat) (hd : 0 < d) (hq : (2 : ℚ) ^ (-1021 : ℤ) ≤ (n : ℚ) / d) :
    |preVal n d - (n : ℚ) / d| ≤ (n : ℚ) / d / 2 ^ 53 := by
  obtain ⟨a1, a2, a3, a4⟩ := binadeExp_spec n d hd
  have hne : -1074 < binadeExp n d := by
    by_contra hle
    have he : binadeExp n d = -1074 := by omega
    have := a3 (by omega)
    rw [he] at this
    norm_num at this hq
    linarith
  have hlow := a4 hne
  rw [zpow_add₀ (by norm_num : (2 : ℚ) ≠ 0)] at hlow
  have herr := preVal_err n d hd
  have hpe : (0 : ℚ) < (2 : ℚ) ^ (binadeExp n d) := by positivity
  have h52 : (2 : ℚ) ^ (52 : ℤ) = 2 ^ 52 := by norm_num
  rw [h52] at hlow
  have : (2 : ℚ) ^ (binadeExp n d) / 2 ≤ (n : ℚ) / d / 2 ^ 53 := by
    rw [le_div_iff₀ (by positivity)]
    have : (2 : ℚ) ^ (binadeExp n d) / 2 * 2 ^ 53 = 2 ^ 52 * (2 : ℚ) ^ (binadeExp n d) := by ring
    rw [this]; exact hlow
  linarith

theorem preVal_nat_exact (b : Nat) (hb : b < 2 ^ 53) : preVal b 1 = b := by
  obtain ⟨a1, a2, a3, a4⟩ := binadeExp_spec b 1 Nat.one_pos
  have hbq : (b : ℚ) < 2 ^ 53 := by exact_mod_cast hb
  have he : binadeExp b 1 ≤ 0 := by
    by_contra hgt
    have hlow := a4 (by omega)
    have hpow : (2 : ℚ) ^ (53 : ℤ) ≤ (2 : ℚ) ^ (52 + binadeExp b 1) :=
      zpow_le_zpow_right₀ (by norm_num) (by omega)
    norm_num at hlow hpow
    linarith
  obtain ⟨k, hk⟩ := Int.eq_ofNat_of_zero_le (show 0 ≤ -(binadeExp b 1) by omega)
  have hM : binadeMant b 1 = b * 2 ^ k := by
    unfold binadeMant
    apply roundHalfEven_exact _ _ _ (scale2_den_pos _ _ _ Nat.one_pos)
    rw [scale2_val _ _ _ Nat.one_pos, hk, zpow_natCast]
    push_cast
    ring
  unfold preVal
  rw [hM]
  have : binadeExp b 1 = -(k : ℤ) := by omega
  rw [this, zpow_neg, zpow_natCast]
  push_cast
  field_simp

theorem ofNat_exact (b : Nat) (hb : b < 2 ^ 53) :
    ∃ m e, F64.ofNat b = .fin false m e ∧ (m : ℚ) * (2 : ℚ) ^ e = b ∧ Canon m e := by
  rcases roundPos_cases false b 1 Nat.one_pos with ⟨hv, _⟩ | ⟨_, m, e, h, hv, hc⟩
  · rw [preVal_nat_exact b hb] at hv
    have hbq : (b : ℚ) < 2 ^ 53 := by exact_mod_cast hb
    have hpow : (2 : ℚ) ^ (53 : ℤ) ≤ (2 : ℚ) ^ (1024 : ℤ) :=
      zpow_le_zpow_right₀ (by norm_num) (by norm_num)
    have h53 : (2 : ℚ) ^ (53 : ℤ) = 2 ^ 53 := by norm_num
    rw [h53] at hpow
    linarith
  · exact ⟨m, e, h, by rw [hv, preVal_nat_exact b hb], hc⟩

theorem roundHalfEven_ge_even (n d H : Nat) (hd : 0 < d) (hH : H % 2 = 0)
    (h : (H : ℚ) - 1 / 2 ≤ (n : ℚ) / d) : H ≤ roundHalfEven n d := by
  by_contra hlt
  have hlt' : roundHalfEven n d + 1 ≤ H := by omega
  have hq : ((roundHalfEven n d : ℕ) : ℚ) + 1 ≤ (H : ℚ) := by exact_mod_cast hlt'
  rcases roundHalfEven_spec n d hd with s | ⟨s, p⟩
  · rw [abs_lt] at s; linarith [s.1, s.2]
  · have a := abs_le.mp s.le
    have heq : (H : ℚ) = (roundHalfEven n d : ℚ) + 1 := by linarith [a.1, a.2]
    have heq' : H = roundHalfEven n d + 1 := by exact_mod_cast heq
    omega

theorem two_zpow_add (n : ℕ) (a e : ℤ) (ha : a = n) :
    (2 : ℚ) ^ (a + e) = 2 ^ n * (2 : ℚ) ^ e := by
  rw [zpow_add₀ (by norm_num : (2 : ℚ) ≠ 0), ha, zpow_natCast]

theorem tie_step (J ny dy nz dz : Nat) (hJ1 : 1 ≤ J) (hJ2 : J ≤ 10000000)
    (hdy : 0 < dy) (hdz : 0 < dz)
    (hy : (ny : ℚ) / dy = (2 * (J : ℚ) - 1) / 20)
    (hz : (nz : ℚ) / dz = 10 * preVal ny dy) :
    (2 * (J : ℚ) - 1) / 2 ≤ preVal nz dz := by
  obtain ⟨a1, a2, a3, a4⟩ := binadeExp_spec ny dy hdy
  obtain ⟨b1, b2, b3, b4⟩ := binadeExp_spec nz dz hdz
  have hJq1 : (1 : ℚ) ≤ J := by exact_mod_cast hJ1
  have hJq2 : (J : ℚ) ≤ 10000000 := by exact_mod_cast hJ2
  have h2J : 1 ≤ 2 * J := by omega
  -- the binade of y
  have hey_hi : binadeExp ny dy ≤ -33 := by
    by_contra hgt
    have hlow := a4 (by omega)
    have hpow : (2 : ℚ) ^ (20 : ℤ) ≤ (2 : ℚ) ^ (52 + binadeExp ny dy) :=
      zpow_le_zpow_right₀ (by norm_num) (by omega)
    rw [hy] at hlow
    norm_num at hpow
    linarith
  have hey_lo : -58 ≤ binadeExp ny dy := by
    by_contra hlt
    have hup := a3 (by omega)
    have hpow : (2 : ℚ) ^ (53 + binadeExp ny dy) ≤ (2 : ℚ) ^ (-6 : ℤ) :=
      zpow_le_zpow_right₀ (by norm_num) (by omega)
    rw [hy] at hup
    norm_num at hpow
    linarith
  obtain ⟨s, hs⟩ := Int.eq_ofNat_of_zero_le (show 0 ≤ -(binadeExp ny dy) - 5 by omega)
  have hey : binadeExp ny dy = -((s + 5 : ℕ) : ℤ) := by push_cast; omega
  have hs1 : 1 ≤ s := by omega
  have hT : (0 : ℚ) < 2 ^ (s + 5) := by positivity
  have hP : (2 : ℚ) ^ (binadeExp ny dy) = ((2 : ℚ) ^ (s + 5))⁻¹ := by
    rw [hey, zpow_neg, zpow_natCast]
  have hMy_ge : (2 : ℚ) ^ 52 ≤ (binadeMant ny dy : ℚ) := by
    exact_mod_cast binadeMant_ge ny dy hdy (by omega)
  have hMy_le : (binadeMant ny dy : ℚ) ≤ 2 ^ 53 := by
    exact_mod_cast binadeMant_le ny dy hdy (by omega)
  have hqz : (nz : ℚ) / dz = 10 * (binadeMant ny dy : ℚ) * ((2 : ℚ) ^ (s + 5))⁻¹ := by
    rw [hz]; unfold preVal; rw [hP]; ring
  -- the binade of z is three or four above
  have hez_lo : binadeExp ny dy + 3 ≤ binadeExp nz dz := by
    by_contra hlt
    have hup := b3 (by omega)
    have hpow : (2 : ℚ) ^ (53 + binadeExp nz dz) ≤ (2 : ℚ) ^ (55 + binadeExp ny dy) :=
      zpow_le_zpow_right₀ (by norm_num) (by omega)
    rw [two_zpow_add 55 55 _ rfl, hP] at hpow
    rw [hqz] at hup
    have := (mul_lt_mul_right (inv_pos.mpr hT)).mp (lt_of_lt_of_le hup hpow)
    have h1 : (2 : ℚ) ^ 55 = 8 * 2 ^ 52 := by norm_num
    linarith
  have hez_hi : binadeExp nz dz ≤ binadeExp ny dy + 4 := by
    by_contra hgt
    have hlow := b4 (by omega)
    have hpow : (2 : ℚ) ^ (57 + binadeExp ny dy) ≤ (2 : ℚ) ^ (52 + binadeExp nz dz) :=
      zpow_le_zpow_right₀ (by norm_num) (by omega)
    rw [two_zpow_add 57 57 _ rfl, hP] at hpow
    rw [hqz] at hlow
    have := (mul_le_mul_right (inv_pos.mpr hT)).mp (le_trans hpow hlow)
    have h1 : (2 : ℚ) ^ 57 = 16 * 2 ^ 53 := by norm_num
    have h2 : (0 : ℚ) < 2 ^ 53 := by norm_num
    linarith
  -- the integer G = h / 2^ey is at most 10 * My + 4
  have hGnat : (2 * J - 1) * 2 ^ (s + 4) ≤ 10 * binadeMant ny dy + 4 := by
    have herr := (abs_le.mp (preVal_err ny dy hdy)).1
    rw [hy] at herr
    unfold preVal at herr
    rw [hP] at herr
    have h1 : (2 * (J : ℚ) - 1) / 20 - ((2 : ℚ) ^ (s + 5))⁻¹ / 2 ≤
        (binadeMant ny dy : ℚ) * ((2 : ℚ) ^ (s + 5))⁻¹ := by linarith
    have h2 := mul_le_mul_of_nonneg_right h1 hT.le
    have h3 : ((2 * (J : ℚ) - 1) / 20 - ((2 : ℚ) ^ (s + 5))⁻¹ / 2) * 2 ^ (s + 5) =
        (2 * (J : ℚ) - 1) * 2 ^ (s + 5) / 20 - 1 / 2 := by
      field_simp
      ring
    have h4 : (binadeMant ny dy : ℚ) * ((2 : ℚ) ^ (s + 5))⁻¹ * 2 ^ (s + 5) =
        (binadeMant ny dy : ℚ) := by
      field_simp
    rw [h3, h4] at h2
    have h5 : (((2 * J - 1) * 2 ^ (s + 4) : ℕ) : ℚ) ≤ ((10 * binadeMant ny dy + 5 : ℕ) : ℚ) := by
      push_cast [Nat.cast_sub h2J]
      have : (2 : ℚ) ^ (s + 5) = 2 * 2 ^ (s + 4) := by rw [pow_succ]; ring
      rw [this] at h2
      linarith
    have h6 : (2 * J - 1) * 2 ^ (s + 4) ≤ 10 * binadeMant ny dy + 5 := by exact_mod_cast h5
    have h7 : (2 * J - 1) * 2 ^ (s + 4) = 2 * ((2 * J - 1) * 2 ^ (s + 3)) := by
      rw [pow_succ]; ring
    omega
  have hGq : (2 * (J : ℚ) - 1) * 2 ^ (s + 4) ≤ 10 * (binadeMant ny dy : ℚ) + 4 := by
    have : (((2 * J - 1) * 2 ^ (s + 4) : ℕ) : ℚ) ≤ ((10 * binadeMant ny dy + 4 : ℕ) : ℚ) := by
      exact_mod_cast hGnat
    push_cast [Nat.cast_sub h2J] at this
    exact this
  -- conclude through the significand of z
  have hPz : (0 : ℚ) < (2 : ℚ) ^ (binadeExp nz dz) := by positivity
  obtain ⟨s', rfl⟩ : ∃ s', s = s' + 1 := ⟨s - 1, by omega⟩
  rcases (show binadeExp nz dz = binadeExp ny dy + 3 ∨ binadeExp nz dz = binadeExp ny dy + 4 by
    omega) with hez | hez
  · have hPz_eq : (2 : ℚ) ^ (binadeExp nz dz) = 8 * ((2 : ℚ) ^ (s' + 1 + 5))⁻¹ := by
      rw [hez, add_comm, two_zpow_add 3 3 _ rfl, hP]; norm_num
    have hH : (2 * J - 1) * 2 ^ (s' + 1 + 1) ≤ binadeMant nz dz := by
      unfold binadeMant
      apply roundHalfEven_ge_even _ _ _ (scale2_den_pos _ _ _ hdz)
      · have : (2 * J - 1) * 2 ^ (s' + 1 + 1) = 2 * ((2 * J - 1) * 2 ^ (s' + 1)) := by
          rw [pow_succ]; ring
        rw [this]; exact Nat.mul_mod_right 2 _
      · rw [scale2_val _ _ _ hdz, hqz, zpow_neg, hPz_eq]
        push_cast [Nat.cast_sub h2J]
        have e1 : (2 : ℚ) ^ (s' + 1 + 4) = 8 * 2 ^ (s' + 1 + 1) := by
          rw [pow_succ, pow_succ, pow_succ]; ring
        rw [e1] at hGq
        have e2 : 10 * (binadeMant ny dy : ℚ) * ((2 : ℚ) ^ (s' + 1 + 5))⁻¹ *
            (8 * ((2 : ℚ) ^ (s' + 1 + 5))⁻¹)⁻¹ = 10 * (binadeMant ny dy : ℚ) / 8 := by
          field_simp
        rw [e2]
        linarith
    have hHq : (((2 * J - 1) * 2 ^ (s' + 1 + 1) : ℕ) : ℚ) ≤ (binadeMant nz dz : ℚ) := by
      exact_mod_cast hH
    have hval : (((2 * J - 1) * 2 ^ (s' + 1 + 1) : ℕ) : ℚ) * (2 : ℚ) ^ (binadeExp nz dz) =
        (2 * (J : ℚ) - 1) / 2 := by
      rw [hPz_eq]
      push_cast [Nat.cast_sub h2J]
      have e1 : (2 : ℚ) ^ (s' + 1 + 5) = 16 * 2 ^ (s' + 1 + 1) := by
        rw [pow_succ, pow_succ, pow_succ, pow_succ]; ring
      rw [e1]
      field_simp
      ring
    unfold preVal
    rw [← hval]
    exact mul_le_mul_of_nonneg_right hHq hPz.le
  · have hPz_eq : (2 : ℚ) ^ (binadeExp nz dz) = 16 * ((2 : ℚ) ^ (s' + 1 + 5))⁻¹ := by
      rw [hez, add_comm, two_zpow_add 4 4 _ rfl, hP]; norm_num
    have hH : (2 * J - 1) * 2 ^ (s' + 1) ≤ binadeMant nz dz := by
      unfold binadeMant
      apply roundHalfEven_ge_even _ _ _ (scale2_den_pos _ _ _ hdz)
      · have : (2 * J - 1) * 2 ^ (s' + 1) = 2 * ((2 * J - 1) * 2 ^ s') := by
          rw [pow_succ]; ring
        rw [this]; exact Nat.mul_mod_right 2 _
      · rw [scale2_val _ _ _ hdz, hqz, zpow_neg, hPz_eq]
        push_cast [Nat.cast_sub h2J]
        have e1 : (2 : ℚ) ^ (s' + 1 + 4) = 16 * 2 ^ (s' + 1) := by
          rw [pow_succ, pow_succ, pow_succ, pow_succ]; ring
        rw [e1] at hGq
        have e2 : 10 * (binadeMant ny dy : ℚ) * ((2 : ℚ) ^ (s' + 1 + 5))⁻¹ *
            (16 * ((2 : ℚ) ^ (s' + 1 + 5))⁻¹)⁻¹ = 10 * (binadeMant ny dy : ℚ) / 16 := by
          field_simp
        rw [e2]
        linarith
    have hHq : (((2 * J - 1) * 2 ^ (s' + 1) : ℕ) : ℚ) ≤ (binadeMant nz dz : ℚ) := by
      exact_mod_cast hH
    have hval : (((2 * J - 1) * 2 ^ (s' + 1) : ℕ) : ℚ) * (2 : ℚ) ^ (binadeExp nz dz) =
        (2 * (J : ℚ) - 1) / 2 := by
      rw [hPz_eq]
      push_cast [Nat.cast_sub h2J]
      have e1 : (2 : ℚ) ^ (s' + 1 + 5) = 32 * 2 ^ (s' + 1) := by
        rw [pow_succ, pow_succ, pow_succ, pow_succ, pow_succ]; ring
      rw [e1]
      field_simp
      ring
    unfold preVal
    rw [← hval]
    exact mul_le_mul_of_nonneg_right hHq hPz.le

theorem floor_tenths (b : Nat) (vz : ℚ) (hclose : |vz - (b : ℚ) / 10 ^ 8| ≤ 4 / 10 ^ 9)
    (htie : ∀ J : Nat, 2 * b + 100000000 = 200000000 * J → (2 * (J : ℚ) - 1) / 2 ≤ vz) :
    ⌊vz + 1 / 2⌋₊ = gbTenths b := by
  have hc := abs_le.mp hclose
  have hb0 : (0 : ℚ) ≤ (b : ℚ) / 10 ^ 8 := by positivity
  have ht : (b : ℚ) = (b : ℚ) / 10 ^ 8 * 10 ^ 8 := by field_simp
  rw [Nat.floor_eq_iff (by linarith [hc.1])]
  unfold gbTenths
  constructor
  · by_cases hJ : 2 * b + 100000000 = 200000000 * ((2 * b + 100000000) / 200000000)
    · have := htie _ hJ
      linarith
    · have h1 : 100000000 * ((2 * b + 100000000) / 200000000) + 1 ≤ b + 50000000 := by omega
      have h2 : (100000000 : ℚ) * (((2 * b + 100000000) / 200000000 : ℕ) : ℚ) + 1 ≤
          (b : ℚ) + 50000000 := by exact_mod_cast h1
      rw [ht] at h2
      norm_num at h2 hc ⊢
      linarith [hc.1]
  · have h1 : b + 50000000 ≤ 100000000 * ((2 * b + 100000000) / 200000000) + 99999999 := by
      omega
    have h2 : (b : ℚ) + 50000000 ≤
        (100000000 : ℚ) * (((2 * b + 100000000) / 200000000 : ℕ) : ℚ) + 99999999 := by
      exact_mod_cast h1
    rw [ht] at h2
    norm_num at h2 hc ⊢
    linarith [hc.2]

theorem preVal_lt_of_small (n d : Nat) (hd : 0 < d) (hlo : (2 : ℚ) ^ (-1021 : ℤ) ≤ (n : ℚ) / d)
    (hhi : (n : ℚ) / d ≤ 2 ^ 30) : preVal n d < (2 : ℚ) ^ (1024 : ℤ) := by
  have h := (abs_le.mp (preVal_rel n d hd hlo)).2
  have hq0 : (0 : ℚ) ≤ (n : ℚ) / d := le_trans (by positivity) hlo
  have h1 : (n : ℚ) / d / 2 ^ 53 ≤ (n : ℚ) / d := div_le_self hq0 (by norm_num)
  have h2 : (2 : ℚ) ^ (31 : ℤ) ≤ (2 : ℚ) ^ (1024 : ℤ) :=
    zpow_le_zpow_right₀ (by norm_num) (by norm_num)
  have h3 : (2 : ℚ) ^ (31 : ℤ) = 2 * 2 ^ 30 := by norm_num
  have h4 : (0 : ℚ) < 2 ^ 30 := by norm_num
  linarith

theorem tiny_le : (2 : ℚ) ^ (-1021 : ℤ) ≤ 1 / 10 ^ 9 := by
  have h1 : (2 : ℚ) ^ (-1021 : ℤ) ≤ (2 : ℚ) ^ (-30 : ℤ) :=
    zpow_le_zpow_right₀ (by norm_num) (by norm_num)
  have h2 : (2 : ℚ) ^ (-30 : ℤ) ≤ 1 / 10 ^ 9 := by norm_num
  exact le_trans h1 h2

theorem roundPos_interval (n d m : Nat) (e : Int) (hd : 0 < d)
    (hq : (2 : ℚ) ^ (-1021 : ℤ) ≤ (n : ℚ) / d)
    (h : roundPos false n d = .fin false m e) :
    ((n : ℚ) / d < (2 * (m : ℚ) + 1) * (2 : ℚ) ^ (e - 1) ∨
      ((n : ℚ) / d = (2 * (m : ℚ) + 1) * (2 : ℚ) ^ (e - 1) ∧ m % 2 = 0)) ∧
    (2 ^ 52 < m → ((2 * (m : ℚ) - 1) * (2 : ℚ) ^ (e - 1) < (n : ℚ) / d ∨
      ((n : ℚ) / d = (2 * (m : ℚ) - 1) * (2 : ℚ) ^ (e - 1) ∧ m % 2 = 0))) ∧
    (m = 2 ^ 52 → (4 * (m : ℚ) - 1) * (2 : ℚ) ^ (e - 2) ≤ (n : ℚ) / d) ∧
    2 ^ 52 ≤ m ∧ m < 2 ^ 53 ∧ -1074 < e := by
  obtain ⟨a1, a2, a3, a4⟩ := binadeExp_spec n d hd
  have hE : -1074 < binadeExp n d := by
    by_contra hle
    have he : binadeExp n d = -1074 := by omega
    have := a3 (by omega)
    rw [he] at this
    norm_num at this hq
    linarith
  have hd' : (d : ℚ) ≠ 0 := by exact_mod_cast hd.ne'
  have hspec0 := roundHalfEven_spec (scale2 n d (binadeExp n d)).1 (scale2 n d (binadeExp n d)).2
    (scale2_den_pos _ _ _ hd)
  rw [scale2_val _ _ _ hd] at hspec0
  have hspec : |(binadeMant n d : ℚ) - (n : ℚ) / d * (2 : ℚ) ^ (-(binadeExp n d))| < 1 / 2 ∨
      (|(binadeMant n d : ℚ) - (n : ℚ) / d * (2 : ℚ) ^ (-(binadeExp n d))| = 1 / 2 ∧
        binadeMant n d % 2 = 0) := hspec0
  have hMle := binadeMant_le n d hd
  have hMge := binadeMant_ge n d hd hE
  have hPE : (0 : ℚ) < (2 : ℚ) ^ (binadeExp n d) := by positivity
  have hinv : (2 : ℚ) ^ (-(binadeExp n d)) = ((2 : ℚ) ^ (binadeExp n d))⁻¹ := zpow_neg _ _
  have hlow := a4 hE
  rw [add_comm, zpow_add₀ (by norm_num : (2 : ℚ) ≠ 0)] at hlow
  have h52 : (2 : ℚ) ^ (52 : ℤ) = 2 ^ 52 := by norm_num
  rw [h52] at hlow
  unfold roundPos at h
  by_cases hM : binadeMant n d = 2 ^ 53
  · rw [if_pos hM] at h
    by_cases he : 971 < binadeExp n d + 1
    · rw [if_pos he] at h; exact absurd h (by simp)
    · rw [if_neg he] at h
      simp only [F64.fin.injEq, true_and] at h
      obtain ⟨hm, hee⟩ := h
      subst hm
      have hup := a3 (by omega)
      rw [add_comm, zpow_add₀ (by norm_num : (2 : ℚ) ≠ 0)] at hup
      have h53 : (2 : ℚ) ^ (53 : ℤ) = 2 ^ 53 := by norm_num
      rw [h53] at hup
      have hp1 : (2 : ℚ) ^ (e - 1) = (2 : ℚ) ^ (binadeExp n d) := by rw [← hee]; congr 1; ring
      have hp2 : (2 : ℚ) ^ (e - 2) = (2 : ℚ) ^ (binadeExp n d) / 2 := by
        rw [← hee, show binadeExp n d + 1 - 2 = binadeExp n d + (-1) by ring,
          zpow_add₀ (by norm_num : (2 : ℚ) ≠ 0)]
        norm_num
        ring
      refine ⟨Or.inl ?_, fun hlt => absurd hlt (lt_irrefl _), fun _ => ?_, le_refl _,
        by norm_num, by omega⟩
      · rw [hp1]; push_cast; nlinarith
      · rw [hp2]
        push_cast
        have hs : (2 : ℚ) ^ 53 - 1 / 2 ≤ (n : ℚ) / d * ((2 : ℚ) ^ (binadeExp n d))⁻¹ := by
          rw [hM, hinv] at hspec
          push_cast at hspec
          rcases hspec with s | ⟨s, _⟩
          · linarith [(abs_lt.mp s).2]
          · linarith [(abs_le.mp s.le).2]
        have := mul_le_mul_of_nonneg_right hs hPE.le
        have hc : (n : ℚ) / d * ((2 : ℚ) ^ (binadeExp n d))⁻¹ * (2 : ℚ) ^ (binadeExp n d) =
            (n : ℚ) / d := by field_simp; ring
        rw [hc] at this
        linarith
  · rw [if_neg hM] at h
    by_cases he : 971 < binadeExp n d
    · rw [if_pos he] at h; exact absurd h (by simp)
    · rw [if_neg he] at h
      simp only [F64.fin.injEq, true_and] at h
      obtain ⟨hm, hee⟩ := h
      have hlt : binadeMant n d < 2 ^ 53 := lt_of_le_of_ne (hMle (by omega)) hM
      rw [hm] at hspec hMge hlt
      rw [hee] at hspec hPE hinv hlow hE
      have hp1 : (2 : ℚ) ^ (e - 1) = (2 : ℚ) ^ e / 2 := by
        rw [show e - 1 = e + (-1) by ring, zpow_add₀ (by norm_num : (2 : ℚ) ≠ 0)]
        norm_num
        ring
      have hp2 : (2 : ℚ) ^ (e - 2) = (2 : ℚ) ^ e / 4 := by
        rw [show e - 2 = e + (-2) by ring, zpow_add₀ (by norm_num : (2 : ℚ) ≠ 0)]
        norm_num
        ring
      have hc : (n : ℚ) / d * ((2 : ℚ) ^ e)⁻¹ * (2 : ℚ) ^ e = (n : ℚ) / d := by
        field_simp; ring
      rw [hinv] at hspec
      refine ⟨?_, fun _ => ?_, fun hm52 => ?_, hMge, hlt, hE⟩
      · rw [hp1]
        rcases hspec with s | ⟨s, p⟩
        · left
          have := mul_lt_mul_of_pos_right (abs_lt.mp s).1 hPE
          rw [sub_mul, hc] at this
          linarith
        · rcases (abs_le.mp s.le).1.lt_or_eq with s1 | s1
          · left
            have := mul_lt_mul_of_pos_right s1 hPE
            rw [sub_mul, hc] at this
            linarith
          · right
            refine ⟨?_, p⟩
            have := congrArg (fun t => t * (2 : ℚ) ^ e) s1
            simp only [sub_mul, hc] at this
            linarith
      · rw [hp1]
        rcases hspec with s | ⟨s, p⟩
        · left
          have := mul_lt_mul_of_pos_right (abs_lt.mp s).2 hPE
          rw [sub_mul, hc] at this
          linarith
        · rcases (abs_le.mp s.le).2.lt_or_eq with s1 | s1
          · left
            have := mul_lt_mul_of_pos_right s1 hPE
            rw [sub_mul, hc] at this
            linarith
          · right
            refine ⟨?_, p⟩
            have := congrArg (fun t => t * (2 : ℚ) ^ e) s1
            simp only [sub_mul, hc] at this
            linarith
      · rw [hp2, hm52]
        push_cast
        linarith

/-! ## Literals -/

theorem ofNat_ten : F64.ofNat 10 = .fin false 5629499534213120 (-49) := by decide!

theorem ofNat_billion : F64.ofNat 1000000000 = .fin false 8388608000000000 (-23) := by decide!

/-! ## Shortest decimal digits of a float -/

theorem digitsAux_fuel (f1 f2 n : Nat) (acc : List Char) (h1 : n < f1) (h2 : n < f2) :
    digitsAux f1 n acc = digitsAux f2 n acc := by
  induction f1 generalizing f2 n acc with
  | zero => omega
  | succ g1 ih =>
    cases f2 with
    | zero => omega
    | succ g2 =>
      simp only [digitsAux]
      split
      · rfl
      · exact ih g2 (n / 10) _ (by omega) (by omega)

theorem digitsAux_acc (f n : Nat) (acc : List Char) (h : n < f) :
    digitsAux f n acc = digitsAux f n [] ++ acc := by
  induction f generalizing n acc with
  | zero => omega
  | succ g ih =>
    simp only [digitsAux]
    split
    · rfl
    · rw [ih (n / 10) (digitChar (n % 10) :: acc) (by omega),
        ih (n / 10) [digitChar (n % 10)] (by omega)]
      simp

theorem natDigits_small (n : Nat) (h : n < 10) : natDigits n = [digitChar n] := by
  simp [natDigits, digitsAux, h]

theorem natDigits_step (n : Nat) (h : 10 ≤ n) :
    natDigits n = natDigits (n / 10) ++ [digitChar (n % 10)] := by
  have hn : ¬ n < 10 := by omega
  unfold natDigits
  rw [digitsAux, if_neg hn, digitsAux_acc n (n / 10) _ (by omega),
    digitsAux_fuel n (n / 10).succ (n / 10) [] (by omega) (by omega)]

theorem natDigits_mul_pow (D t : Nat) (hD : 1 ≤ D) :
    natDigits (D * 10 ^ t) = natDigits D ++ List.replicate t '0' := by
  induction t with
  | zero => simp
  | succ t ih =>
    have hpos : 1 ≤ D * 10 ^ t := Nat.mul_pos hD (Nat.pos_pow_of_pos _ (by decide))
    have h10 : 10 ≤ D * 10 ^ (t + 1) := by
      have : D * 10 ^ (t + 1) = D * 10 ^ t * 10 := by rw [pow_succ]; ring
      omega
    have hdiv : D * 10 ^ (t + 1) / 10 = D * 10 ^ t := by
      rw [pow_succ, ← Nat.mul_assoc]; exact Nat.mul_div_cancel _ (by decide)
    have hmod : D * 10 ^ (t + 1) % 10 = 0 := by
      rw [pow_succ, ← Nat.mul_assoc]; exact Nat.mul_mod_left _ _
    rw [natDigits_step _ h10, hdiv, hmod, ih, List.replicate_succ']
    have : digitChar 0 = '0' := by decide
    rw [this, List.append_assoc]

theorem natDigits_length_le (t n : Nat) (h : n < 10 ^ (t + 1)) :
    (natDigits n).length ≤ t + 1 := by
  induction t generalizing n with
  | zero =>
    rw [natDigits_small n (by simpa using h)]; simp
  | succ t ih =>
    by_cases hn : n < 10
    · rw [natDigits_small n hn]; simp
    · rw [natDigits_step n (by omega), List.length_append]
      have : n / 10 < 10 ^ (t + 1) := by
        rw [Nat.div_lt_iff_lt_mul (by decide)]; rw [pow_succ] at h; exact h
      have := ih (n / 10) this
      simp; omega

theorem natDigits_length_ge (t n : Nat) (h : 10 ^ t ≤ n) : t + 1 ≤ (natDigits n).length := by
  induction t generalizing n with
  | zero =>
    by_cases hn : n < 10
    · rw [natDigits_small n hn]; simp
    · rw [natDigits_step n (by omega), List.length_append]; simp
  | succ t ih =>
    have h10 : 10 ≤ n := by
      have : 10 ^ 1 ≤ 10 ^ (t + 1) := Nat.pow_le_pow_right (by decide) (by omega)
      omega
    rw [natDigits_step n h10, List.length_append]
    have : 10 ^ t ≤ n / 10 := by
      rw [Nat.le_div_iff_mul_le (by decide)]; rw [pow_succ] at h; exact h
    have := ih (n / 10) this
    simp; omega

theorem natDigits_length_pos (n : Nat) : 1 ≤ (natDigits n).length := by
  by_cases hn : n < 10
  · rw [natDigits_small n hn]; simp
  · rw [natDigits_step n (by omega), List.length_append]; simp

theorem stripZeros_spec (fuel D p : Nat) (hD : 1 ≤ D) (hf : D < fuel) :
    (stripZeros fuel D p).1 * 10 ^ (stripZeros fuel D p).2 = D * 10 ^ p ∧
    p ≤ (stripZeros fuel D p).2 ∧ (stripZeros fuel D p).1 % 10 ≠ 0 := by
  induction fuel generalizing D p with
  | zero => omega
  | succ fuel ih =>
    simp only [stripZeros]
    split
    · rename_i h
      have hdiv : 1 ≤ D / 10 := by omega
      obtain ⟨i1, i2, i3⟩ := ih (D / 10) (p + 1) hdiv (by omega)
      refine ⟨?_, by omega, i3⟩
      rw [i1, pow_succ]
      have : D = D / 10 * 10 := by omega
      nth_rewrite 2 [this]
      ring
    · rename_i h
      refine ⟨rfl, le_refl _, ?_⟩
      intro h0
      exact h ⟨by omega, h0⟩

theorem eq_of_dvd_close (w a b : Nat) (ha : w ∣ a) (hb : w ∣ b) (h1 : a < b + w)
    (h2 : b < a + w) : a = b := by
  obtain ⟨a', rfl⟩ := ha
  obtain ⟨b', rfl⟩ := hb
  rcases Nat.eq_zero_or_pos w with rfl | hw
  · simp
  · have h3 : a' < b' + 1 := by
      have : w * a' < w * (b' + 1) := by rw [Nat.mul_add]; simpa using h1
      exact Nat.lt_of_mul_lt_mul_left this
    have h4 : b' < a' + 1 := by
      have : w * b' < w * (a' + 1) := by rw [Nat.mul_add]; simpa using h2
      exact Nat.lt_of_mul_lt_mul_left this
    have : a' = b' := by omega
    rw [this]

theorem shortestWalk_spec (P x lo hi Y j : Nat) (incl : Bool)
    (hY : 10 ^ j ∣ Y) (hP : j < P) (hlo : lo < x) (hhi : x < hi)
    (hYlo : lo < Y ∨ (incl = true ∧ lo = Y)) (hYhi : Y < hi ∨ (incl = true ∧ Y ≤ hi))
    (hnarrow : hi < lo + 10 ^ j) :
    (shortestWalk P x lo hi incl).1 * 10 ^ (shortestWalk P x lo hi incl).2 = Y ∧
    j ≤ (shortestWalk P x lo hi incl).2 := by
  have hYlo' : lo ≤ Y := by rcases hYlo with h | ⟨_, h⟩ <;> omega
  have hYhi' : Y ≤ hi := by rcases hYhi with h | ⟨_, h⟩ <;> omega
  induction P with
  | zero => omega
  | succ p ih =>
    have hw : 0 < 10 ^ p := Nat.pos_pow_of_pos _ (by decide)
    have hjp : j ≤ p := by omega
    have hdvd : 10 ^ j ∣ 10 ^ p := Nat.pow_dvd_pow 10 hjp
    have hwj : 10 ^ j ≤ 10 ^ p := Nat.pow_le_pow_right (by decide) hjp
    have hT1 : x / 10 ^ p * 10 ^ p ≤ x := Nat.div_mul_le_self x _
    have hT2 : x < x / 10 ^ p * 10 ^ p + 10 ^ p := by
      have := Nat.lt_div_mul_add (a := x) hw
      omega
    have hTd : 10 ^ j ∣ x / 10 ^ p * 10 ^ p := Dvd.dvd.mul_left hdvd _
    have hRd : 10 ^ j ∣ x / 10 ^ p * 10 ^ p + 10 ^ p := Nat.dvd_add hTd hdvd
    have hdown : (lo < x / 10 ^ p * 10 ^ p ∨ (incl = true ∧ lo = x / 10 ^ p * 10 ^ p)) →
        x / 10 ^ p * 10 ^ p = Y := fun h =>
      eq_of_dvd_close (10 ^ j) _ _ hTd hY (by rcases h with h | ⟨_, h⟩ <;> omega)
        (by rcases h with h | ⟨_, h⟩ <;> omega)
    have hup : (x / 10 ^ p * 10 ^ p + 10 ^ p < hi ∨
        (incl = true ∧ x / 10 ^ p * 10 ^ p + 10 ^ p ≤ hi)) →
        x / 10 ^ p * 10 ^ p + 10 ^ p = Y := fun h =>
      eq_of_dvd_close (10 ^ j) _ _ hRd hY (by rcases h with h | ⟨_, h⟩ <;> omega)
        (by rcases h with h | ⟨_, h⟩ <;> omega)
    simp only [shortestWalk]
    by_cases hd : (lo < x / 10 ^ p * 10 ^ p ∨ (incl = true ∧ lo = x / 10 ^ p * 10 ^ p))
    · rw [if_pos hd]
      by_cases hu : (x / 10 ^ p * 10 ^ p + 10 ^ p < hi ∨
          (incl = true ∧ x / 10 ^ p * 10 ^ p + 10 ^ p ≤ hi))
      · have := hdown hd
        have := hup hu
        omega
      · rw [if_neg hu]
        exact ⟨hdown hd, hjp⟩
    · rw [if_neg hd]
      by_cases hu : (x / 10 ^ p * 10 ^ p + 10 ^ p < hi ∨
          (incl = true ∧ x / 10 ^ p * 10 ^ p + 10 ^ p ≤ hi))
      · rw [if_pos hu]
        refine ⟨?_, hjp⟩
        rw [Nat.add_mul, Nat.one_mul]
        exact hup hu
      · rw [if_neg hu]
        rcases Nat.lt_or_ge j p with hlt | hge
        · exact ih hlt
        · have hpj : p = j := by omega
          subst hpj
          exfalso
          rcases Nat.lt_or_ge x Y with hxy | hxy
          · have : x / 10 ^ p * 10 ^ p + 10 ^ p = Y :=
              eq_of_dvd_close (10 ^ p) _ _ hRd hY (by omega) (by omega)
            apply hu
            rw [this]
            exact hYhi
          · have : x / 10 ^ p * 10 ^ p = Y :=
              eq_of_dvd_close (10 ^ p) _ _ hTd hY (by omega) (by omega)
            apply hd
            rw [this]
            exact hYlo


theorem fmtG_tenths (D r K : Nat) (hK1 : 1 ≤ K) (hK : K < 10000000) (hD : D * 10 ^ r = K)
    (hD10 : D % 10 ≠ 0) :
    fmtG (natDigits D) (((natDigits D).length : Int) + (r : Int) - 1) =
      natDigits (K / 10) ++ (if K % 10 = 0 then [] else ['.', digitChar (K % 10)]) := by
  have hD1 : 1 ≤ D := by omega
  rcases Nat.eq_zero_or_pos r with rfl | hr
  · -- one decimal
    simp only [pow_zero, Nat.mul_one] at hD
    subst hD
    have hlen7 : (natDigits D).length ≤ 7 := natDigits_length_le 6 D (by norm_num; omega)
    have hlen1 := natDigits_length_pos D
    rw [if_neg hD10]
    unfold fmtG
    rw [if_neg (by push_cast; omega)]
    unfold fmtF
    by_cases hsmall : D < 10
    · rw [natDigits_small D hsmall]
      have h0 : D / 10 = 0 := by omega
      have hm : D % 10 = D := by omega
      rw [h0, hm, natDigits_small 0 (by decide)]
      have : digitChar 0 = '0' := by decide
      simp [this]
    · rw [natDigits_step D (by omega)]
      have hl := natDigits_length_pos (D / 10)
      simp only [List.length_append, List.length_singleton, Nat.cast_add, Nat.cast_one,
        Nat.cast_zero, add_zero, add_sub_cancel_right]
      rw [if_pos (by omega), if_pos (by omega)]
      simp only [Int.toNat_ofNat, List.take_left', Int.toNat_neg_nat, List.replicate_zero,
        List.nil_append, List.drop_left', Nat.sub_eq_zero_of_le (Nat.le_succ _),
        List.append_nil]
  · -- whole number of gigabytes
    obtain ⟨t, rfl⟩ : ∃ t, r = t + 1 := ⟨r - 1, by omega⟩
    have hK10 : K % 10 = 0 := by
      rw [← hD, pow_succ, ← Nat.mul_assoc]; exact Nat.mul_mod_left _ _
    have hn : K / 10 = D * 10 ^ t := by
      rw [← hD, pow_succ, ← Nat.mul_assoc]; exact Nat.mul_div_cancel _ (by decide)
    rw [if_pos hK10, hn, natDigits_mul_pow D t hD1, List.append_nil]
    have hlen : (natDigits (D * 10 ^ t)).length ≤ 6 :=
      natDigits_length_le 5 _ (by rw [← hn]; norm_num; omega)
    rw [natDigits_mul_pow D t hD1, List.length_append, List.length_replicate] at hlen
    have hlen1 := natDigits_length_pos D
    unfold fmtG
    rw [if_neg (by push_cast; omega)]
    unfold fmtF
    rw [if_pos (by push_cast; omega), if_neg (by push_cast; omega)]
    have htn : (((natDigits D).length : Int) + ((t + 1 : ℕ) : Int) - 1).toNat =
        (natDigits D).length + t := by push_cast; omega
    rw [htn, List.take_of_length_le (by omega), List.append_nil]
    congr 2
    omega


theorem decPlaces_neg (a : Nat) (e : Int) (he : e = -(a : ℤ)) : decPlaces e = a + 2 := by
  unfold decPlaces
  rw [if_pos (by omega)]
  omega

theorem decScale_neg (n a k : Nat) (e : Int) (he : e = -(a : ℤ)) (ha : 1 ≤ a) (hak : a ≤ k) :
    decScale n e k = n * 5 ^ k * 2 ^ (k - a) := by
  unfold decScale
  rw [if_neg (by omega)]
  have h1 : (-e).toNat = a := by omega
  rw [h1]
  have h10 : (10 : ℕ) ^ k = 5 ^ k * 2 ^ (k - a) * 2 ^ a := by
    rw [Nat.mul_assoc, ← pow_add, Nat.sub_add_cancel hak, ← Nat.mul_pow]
  rw [h10, ← Nat.mul_assoc, ← Nat.mul_assoc]
  exact Nat.mul_div_cancel _ (Nat.pos_pow_of_pos _ (by decide))

theorem shortestDigits_eq (m : Nat) (e : Int) :
    shortestDigits m e =
      (natDigits (stripZeros
        ((shortestWalk ((natDigits (decScale (2 * m + 1) (e - 1) (decPlaces e))).length + 1)
          (decScale m e (decPlaces e)) (lowerBound m e (decPlaces e))
          (decScale (2 * m + 1) (e - 1) (decPlaces e)) (m % 2 = 0)).1 + 1)
        (shortestWalk ((natDigits (decScale (2 * m + 1) (e - 1) (decPlaces e))).length + 1)
          (decScale m e (decPlaces e)) (lowerBound m e (decPlaces e))
          (decScale (2 * m + 1) (e - 1) (decPlaces e)) (m % 2 = 0)).1
        (shortestWalk ((natDigits (decScale (2 * m + 1) (e - 1) (decPlaces e))).length + 1)
          (decScale m e (decPlaces e)) (lowerBound m e (decPlaces e))
          (decScale (2 * m + 1) (e - 1) (decPlaces e)) (m % 2 = 0)).2).1,
      ((natDigits (stripZeros
        ((shortestWalk ((natDigits (decScale (2 * m + 1) (e - 1) (decPlaces e))).length + 1)
          (decScale m e (decPlaces e)) (lowerBound m e (decPlaces e))
          (decScale (2 * m + 1) (e - 1) (decPlaces e)) (m % 2 = 0)).1 + 1)
        (shortestWalk ((natDigits (decScale (2 * m + 1) (e - 1) (decPlaces e))).length + 1)
          (decScale m e (decPlaces e)) (lowerBound m e (decPlaces e))
          (decScale (2 * m + 1) (e - 1) (decPlaces e)) (m % 2 = 0)).1
        (shortestWalk ((natDigits (decScale (2 * m + 1) (e - 1) (decPlaces e))).length + 1)
          (decScale m e (decPlaces e)) (lowerBound m e (decPlaces e))
          (decScale (2 * m + 1) (e - 1) (decPlaces e)) (m % 2 = 0)).2).1).length : Int) +
      ((stripZeros
        ((shortestWalk ((natDigits (decScale (2 * m + 1) (e - 1) (decPlaces e))).length + 1)
          (decScale m e (decPlaces e)) (lowerBound m e (decPlaces e))
          (decScale (2 * m + 1) (e - 1) (decPlaces e)) (m % 2 = 0)).1 + 1)
        (shortestWalk ((natDigits (decScale (2 * m + 1) (e - 1) (decPlaces e))).length + 1)
          (decScale m e (decPlaces e)) (lowerBound m e (decPlaces e))
          (decScale (2 * m + 1) (e - 1) (decPlaces e)) (m % 2 = 0)).1
        (shortestWalk ((natDigits (decScale (2 * m + 1) (e - 1) (decPlaces e))).length + 1)
          (decScale m e (decPlaces e)) (lowerBound m e (decPlaces e))
          (decScale (2 * m + 1) (e - 1) (decPlaces e)) (m % 2 = 0)).2).2 : Int) -
      (decPlaces e : Int)) := rfl

/-- What the shortest-digits search returns when a decimal `Y / 10^k` with few
digits lies in the rounding interval: that decimal, without trailing zeros. -/
theorem shortestDigits_of_decimal (m : Nat) (e : Int) (Y j : Nat) (hY1 : 1 ≤ Y)
    (hY : 10 ^ j ∣ Y)
    (hP : 10 ^ j ≤ decScale (2 * m + 1) (e - 1) (decPlaces e))
    (hlo : lowerBound m e (decPlaces e) < decScale m e (decPlaces e))
    (hhi : decScale m e (decPlaces e) < decScale (2 * m + 1) (e - 1) (decPlaces e))
    (hYlo : lowerBound m e (decPlaces e) < Y ∨ (m % 2 = 0 ∧ lowerBound m e (decPlaces e) = Y))
    (hYhi : Y < decScale (2 * m + 1) (e - 1) (decPlaces e) ∨
      (m % 2 = 0 ∧ Y ≤ decScale (2 * m + 1) (e - 1) (decPlaces e)))
    (hnarrow : decScale (2 * m + 1) (e - 1) (decPlaces e) <
      lowerBound m e (decPlaces e) + 10 ^ j) :
    ∃ D p, D * 10 ^ p = Y ∧ j ≤ p ∧ D % 10 ≠ 0 ∧
      shortestDigits m e =
        (natDigits D, ((natDigits D).length : Int) + (p : Int) - (decPlaces e : Int)) := by
  have hlen := natDigits_length_ge j _ hP
  obtain ⟨w1, w2⟩ := shortestWalk_spec
    ((natDigits (decScale (2 * m + 1) (e - 1) (decPlaces e))).length + 1)
    (decScale m e (decPlaces e)) (lowerBound m e (decPlaces e))
    (decScale (2 * m + 1) (e - 1) (decPlaces e)) Y j (decide (m % 2 = 0)) hY (by omega) hlo hhi
    (by simpa using hYlo) (by simpa using hYhi) hnarrow
  have hD0 : 1 ≤ (shortestWalk ((natDigits (decScale (2 * m + 1) (e - 1) (decPlaces e))).length + 1)
      (decScale m e (decPlaces e)) (lowerBound m e (decPlaces e))
      (decScale (2 * m + 1) (e - 1) (decPlaces e)) (decide (m % 2 = 0))).1 := by
    by_contra h0
    have : (shortestWalk ((natDigits (decScale (2 * m + 1) (e - 1) (decPlaces e))).length + 1)
      (decScale m e (decPlaces e)) (lowerBound m e (decPlaces e))
      (decScale (2 * m + 1) (e - 1) (decPlaces e)) (decide (m % 2 = 0))).1 = 0 := by omega
    rw [this] at w1
    omega
  obtain ⟨s1, s2, s3⟩ := stripZeros_spec _ _
    (shortestWalk ((natDigits (decScale (2 * m + 1) (e - 1) (decPlaces e))).length + 1)
      (decScale m e (decPlaces e)) (lowerBound m e (decPlaces e))
      (decScale (2 * m + 1) (e - 1) (decPlaces e)) (decide (m % 2 = 0))).2 hD0 (Nat.lt_succ_self _)
  exact ⟨_, _, s1.trans w1, le_trans w2 s2, s3, shortestDigits_eq m e⟩


theorem shortestDigits_tenths (K m : Nat) (e : Int) (hK1 : 1 ≤ K) (hK : K < 10000000)
    (hx : roundPos false K 10 = .fin false m e) :
    ∃ D r : Nat, D * 10 ^ r = K ∧ D % 10 ≠ 0 ∧
      shortestDigits m e = (natDigits D, ((natDigits D).length : Int) + (r : Int) - 1) := by
  have hKq1 : (1 : ℚ) ≤ (K : ℚ) := by exact_mod_cast hK1
  have hKq2 : (K : ℚ) < 10000000 := by exact_mod_cast hK
  have hq_lo : (2 : ℚ) ^ (-1021 : ℤ) ≤ ((K : ℕ) : ℚ) / ((10 : ℕ) : ℚ) := by
    refine le_trans tiny_le ?_
    push_cast
    rw [div_le_div_iff₀ (by norm_num : (0 : ℚ) < 10 ^ 9) (by norm_num : (0 : ℚ) < 10)]
    linarith
  obtain ⟨hU, hLgt, hLeq, hm52, hm53, he⟩ := roundPos_interval K 10 m e (by norm_num) hq_lo hx
  push_cast at hU hLgt hLeq
  have hmq52 : (2 : ℚ) ^ 52 ≤ (m : ℚ) := by exact_mod_cast hm52
  have hmq53 : (m : ℚ) < 2 ^ 53 := by exact_mod_cast hm53
  have hP1 : (0 : ℚ) < (2 : ℚ) ^ (e - 1) := by positivity
  have hp2 : (2 : ℚ) ^ (e - 2) = (2 : ℚ) ^ (e - 1) / 2 := by
    rw [show e - 2 = e - 1 + (-1) by ring, zpow_add₀ (by norm_num : (2 : ℚ) ≠ 0)]
    norm_num
    ring
  -- the exponent lies between -57 and -32
  have hlow_any : (2 : ℚ) ^ 52 * (2 : ℚ) ^ (e - 1) ≤ (K : ℚ) / 10 := by
    rcases hm52.lt_or_eq with hlt | heq
    · have h1 : (2 * (m : ℚ) - 1) * (2 : ℚ) ^ (e - 1) ≤ (K : ℚ) / 10 := by
        rcases hLgt hlt with h | ⟨h, _⟩
        · exact h.le
        · exact h.ge
      have h2 : (2 : ℚ) ^ 52 * (2 : ℚ) ^ (e - 1) ≤ (2 * (m : ℚ) - 1) * (2 : ℚ) ^ (e - 1) :=
        mul_le_mul_of_nonneg_right (by linarith) hP1.le
      linarith
    · have h1 := hLeq heq.symm
      rw [hp2] at h1
      have h2 : (2 : ℚ) ^ 52 * (2 : ℚ) ^ (e - 1) ≤ (4 * (m : ℚ) - 1) * ((2 : ℚ) ^ (e - 1) / 2) := by
        have : (4 * (m : ℚ) - 1) * ((2 : ℚ) ^ (e - 1) / 2) =
            ((4 * (m : ℚ) - 1) / 2) * (2 : ℚ) ^ (e - 1) := by ring
        rw [this]
        exact mul_le_mul_of_nonneg_right (by linarith) hP1.le
      linarith
  have hup_any : (K : ℚ) / 10 ≤ 2 ^ 54 * (2 : ℚ) ^ (e - 1) := by
    have h1 : (K : ℚ) / 10 ≤ (2 * (m : ℚ) + 1) * (2 : ℚ) ^ (e - 1) := by
      rcases hU with h | ⟨h, _⟩
      · exact h.le
      · exact h.le
    have h54 : (2 : ℚ) ^ 54 = 2 * 2 ^ 53 := by norm_num
    have h2 : (2 * (m : ℚ) + 1) * (2 : ℚ) ^ (e - 1) ≤ 2 ^ 54 * (2 : ℚ) ^ (e - 1) := by
      apply mul_le_mul_of_nonneg_right _ hP1.le
      have hm' : (m : ℚ) + 1 ≤ 2 ^ 53 := by exact_mod_cast hm53
      linarith
    linarith
  have he_hi : e ≤ -32 := by
    by_contra hgt
    have hpow : (2 : ℚ) ^ (-32 : ℤ) ≤ (2 : ℚ) ^ (e - 1) :=
      zpow_le_zpow_right₀ (by norm_num) (by omega)
    have h1 : (2 : ℚ) ^ 52 * (2 : ℚ) ^ (-32 : ℤ) ≤ (2 : ℚ) ^ 52 * (2 : ℚ) ^ (e - 1) :=
      mul_le_mul_of_nonneg_left hpow (by norm_num)
    have h2 : (2 : ℚ) ^ 52 * (2 : ℚ) ^ (-32 : ℤ) = 1048576 := by norm_num
    rw [h2] at h1
    linarith
  have he_lo : -57 ≤ e := by
    by_contra hlt
    have hpow : (2 : ℚ) ^ (e - 1) ≤ (2 : ℚ) ^ (-59 : ℤ) :=
      zpow_le_zpow_right₀ (by norm_num) (by omega)
    have h1 : (2 : ℚ) ^ 54 * (2 : ℚ) ^ (e - 1) ≤ (2 : ℚ) ^ 54 * (2 : ℚ) ^ (-59 : ℤ) :=
      mul_le_mul_of_nonneg_left hpow (by norm_num)
    have h2 : (2 : ℚ) ^ 54 * (2 : ℚ) ^ (-59 : ℤ) = 1 / 32 := by norm_num
    rw [h2] at h1
    linarith
  obtain ⟨a, ha⟩ := Int.eq_ofNat_of_zero_le (show 0 ≤ -e by omega)
  have hea : e = -(a : ℤ) := by omega
  have ha32 : 32 ≤ a := by omega
  have hT : (0 : ℚ) < (2 : ℚ) ^ (a + 1) := by positivity
  have hp1 : (2 : ℚ) ^ (e - 1) = ((2 : ℚ) ^ (a + 1))⁻¹ := by
    rw [hea, show -(a : ℤ) - 1 = -((a + 1 : ℕ) : ℤ) by push_cast; ring, zpow_neg, zpow_natCast]
  rw [hp1] at hU hLgt
  rw [hp2, hp1] at hLeq
  -- the interval, as natural numbers
  have hUn : K * 2 ^ (a + 1) < 10 * (2 * m + 1) ∨
      (K * 2 ^ (a + 1) = 10 * (2 * m + 1) ∧ m % 2 = 0) := by
    rcases hU with h | ⟨h, p⟩
    · left
      rw [← div_eq_mul_inv, div_lt_div_iff₀ (by norm_num) hT] at h
      have : ((K * 2 ^ (a + 1) : ℕ) : ℚ) < ((10 * (2 * m + 1) : ℕ) : ℚ) := by
        push_cast; linarith
      exact_mod_cast this
    · right
      refine ⟨?_, p⟩
      rw [← div_eq_mul_inv, div_eq_div_iff (by norm_num) hT.ne'] at h
      have : ((K * 2 ^ (a + 1) : ℕ) : ℚ) = ((10 * (2 * m + 1) : ℕ) : ℚ) := by
        push_cast; linarith
      exact_mod_cast this
  have hLn1 : 2 ^ 52 < m → (10 * (2 * m - 1) < K * 2 ^ (a + 1) ∨
      (10 * (2 * m - 1) = K * 2 ^ (a + 1) ∧ m % 2 = 0)) := by
    intro hlt
    have h2m : 1 ≤ 2 * m := by omega
    rcases hLgt hlt with h | ⟨h, p⟩
    · left
      rw [← div_eq_mul_inv, div_lt_div_iff₀ hT (by norm_num)] at h
      have : ((10 * (2 * m - 1) : ℕ) : ℚ) < ((K * 2 ^ (a + 1) : ℕ) : ℚ) := by
        push_cast [Nat.cast_sub h2m]; linarith
      exact_mod_cast this
    · right
      refine ⟨?_, p⟩
      rw [← div_eq_mul_inv, div_eq_div_iff (by norm_num) hT.ne'] at h
      have : ((10 * (2 * m - 1) : ℕ) : ℚ) = ((K * 2 ^ (a + 1) : ℕ) : ℚ) := by
        push_cast [Nat.cast_sub h2m]; linarith
      exact_mod_cast this
  have hLn2 : m = 2 ^ 52 → 5 * (4 * m - 1) ≤ K * 2 ^ (a + 1) := by
    intro heq
    have h4m : 1 ≤ 4 * m := by omega
    have h := hLeq heq
    have h' : (4 * (m : ℚ) - 1) / (2 * 2 ^ (a + 1)) ≤ (K : ℚ) / 10 := by
      have : (4 * (m : ℚ) - 1) * (((2 : ℚ) ^ (a + 1))⁻¹ / 2) =
          (4 * (m : ℚ) - 1) / (2 * 2 ^ (a + 1)) := by
        rw [div_eq_mul_inv, div_eq_mul_inv, mul_inv, mul_comm (2 : ℚ)⁻¹]
      rw [← this]; exact h
    rw [div_le_div_iff₀ (by positivity) (by norm_num)] at h'
    have : ((5 * (4 * m - 1) : ℕ) : ℚ) ≤ ((K * 2 ^ (a + 1) : ℕ) : ℚ) := by
      push_cast [Nat.cast_sub h4m]; linarith
    exact_mod_cast this
  -- the scaled integers of the digit search
  have hc : 0 < 5 ^ (a + 1) := Nat.pos_pow_of_pos _ (by decide)
  have hB : 20 < 2 ^ (a + 1) := by
    have : 2 ^ 5 ≤ 2 ^ (a + 1) := Nat.pow_le_pow_right (by decide) (by omega)
    omega
  have hk : decPlaces e = a + 2 := decPlaces_neg a e hea
  have hX : decScale m e (a + 2) = 20 * m * 5 ^ (a + 1) := by
    rw [decScale_neg m a (a + 2) e hea (by omega) (by omega), Nat.add_sub_cancel_left, pow_succ]
    ring
  have hUs : decScale (2 * m + 1) (e - 1) (a + 2) = 10 * (2 * m + 1) * 5 ^ (a + 1) := by
    rw [decScale_neg (2 * m + 1) (a + 1) (a + 2) (e - 1) (by push_cast; omega) (by omega)
      (by omega), show a + 2 - (a + 1) = 1 by omega, pow_succ 5 (a + 1)]
    ring
  have hL : lowerBound m e (a + 2) =
      if 2 ^ 52 < m then 10 * (2 * m - 1) * 5 ^ (a + 1) else 5 * (4 * m - 1) * 5 ^ (a + 1) := by
    unfold lowerBound
    by_cases hlt : 2 ^ 52 < m
    · rw [if_pos (Or.inl hlt), if_pos hlt,
        decScale_neg (2 * m - 1) (a + 1) (a + 2) (e - 1) (by push_cast; omega) (by omega)
          (by omega), show a + 2 - (a + 1) = 1 by omega, pow_succ 5 (a + 1)]
      ring
    · rw [if_neg (by intro h; rcases h with h | h <;> omega), if_neg hlt,
        decScale_neg (4 * m - 1) (a + 2) (a + 2) (e - 2) (by push_cast; omega) (by omega)
          (le_refl _), Nat.sub_self, pow_succ 5 (a + 1)]
      ring
  have hY10 : K * 10 ^ (a + 1) = K * 2 ^ (a + 1) * 5 ^ (a + 1) := by
    rw [show (10 : ℕ) = 2 * 5 by rfl, Nat.mul_pow]; ring
  have h10 : (10 : ℕ) ^ (a + 1) = 2 ^ (a + 1) * 5 ^ (a + 1) := by
    rw [show (10 : ℕ) = 2 * 5 by rfl, Nat.mul_pow]
  have hK2 : 1 * 2 ^ (a + 1) ≤ K * 2 ^ (a + 1) := Nat.mul_le_mul_right _ hK1
  have g1 : 10 ^ (a + 1) ≤ decScale (2 * m + 1) (e - 1) (decPlaces e) := by
    rw [hk, hUs, h10]
    apply Nat.mul_le_mul_right
    rcases hUn with h | ⟨h, _⟩ <;> omega
  have g2 : lowerBound m e (decPlaces e) < decScale m e (decPlaces e) := by
    rw [hk, hX, hL]
    split
    · exact Nat.mul_lt_mul_of_pos_right (by omega) hc
    · exact Nat.mul_lt_mul_of_pos_right (by omega) hc
  have g3 : decScale m e (decPlaces e) < decScale (2 * m + 1) (e - 1) (decPlaces e) := by
    rw [hk, hX, hUs]
    exact Nat.mul_lt_mul_of_pos_right (by omega) hc
  have g4 : lowerBound m e (decPlaces e) < K * 10 ^ (a + 1) ∨
      (m % 2 = 0 ∧ lowerBound m e (decPlaces e) = K * 10 ^ (a + 1)) := by
    rw [hk, hL, hY10]
    by_cases hlt : 2 ^ 52 < m
    · rw [if_pos hlt]
      rcases hLn1 hlt with h | ⟨h, p⟩
      · exact Or.inl (Nat.mul_lt_mul_of_pos_right h hc)
      · exact Or.inr ⟨p, by rw [h]⟩
    · rw [if_neg hlt]
      have hm : m = 2 ^ 52 := by omega
      have hev : m % 2 = 0 := by rw [hm]; norm_num
      rcases (hLn2 hm).lt_or_eq with h | h
      · exact Or.inl (Nat.mul_lt_mul_of_pos_right h hc)
      · exact Or.inr ⟨hev, by rw [h]⟩
  have g5 : K * 10 ^ (a + 1) < decScale (2 * m + 1) (e - 1) (decPlaces e) ∨
      (m % 2 = 0 ∧ K * 10 ^ (a + 1) ≤ decScale (2 * m + 1) (e - 1) (decPlaces e)) := by
    rw [hk, hUs, hY10]
    rcases hUn with h | ⟨h, p⟩
    · exact Or.inl (Nat.mul_lt_mul_of_pos_right h hc)
    · exact Or.inr ⟨p, by rw [h]⟩
  have g6 : decScale (2 * m + 1) (e - 1) (decPlaces e) <
      lowerBound m e (decPlaces e) + 10 ^ (a + 1) := by
    rw [hk, hUs, hL, h10]
    split
    · rw [← Nat.add_mul]
      exact Nat.mul_lt_mul_of_pos_right (by omega) hc
    · rw [← Nat.add_mul]
      exact Nat.mul_lt_mul_of_pos_right (by omega) hc
  obtain ⟨D, p, hDp, hjp, hD10, hsd⟩ := shortestDigits_of_decimal m e (K * 10 ^ (a + 1)) (a + 1)
    (Nat.mul_pos hK1 (Nat.pos_pow_of_pos _ (by decide))) (Dvd.intro_left K rfl) g1 g2 g3 g4 g5 g6
  obtain ⟨r, rfl⟩ : ∃ r, p = (a + 1) + r := ⟨p - (a + 1), by omega⟩
  refine ⟨D, r, ?_, hD10, ?_⟩
  · rw [pow_add, ← Nat.mul_assoc, Nat.mul_right_comm] at hDp
    exact Nat.eq_of_mul_eq_mul_right (Nat.pos_pow_of_pos (a + 1) (by decide : 0 < 10)) hDp
  · have hdp : ((natDigits D).length : Int) + ((a + 1 + r : ℕ) : Int) - ((a + 2 : ℕ) : Int) =
        ((natDigits D).length : Int) + (r : Int) - 1 := by
      push_cast; ring
    rw [hsd, hk, hdp]


theorem ftos_tenths_zero : ftos (F64.div (F64.ofNat 0) (F64.ofNat 10)) = tenthsText 0 := by
  decide!

theorem ftos_fin (m : Nat) (e : Int) (hm : m ≠ 0) :
    ftos (.fin false m e) = String.mk (fmtG (shortestDigits m e).1 (shortestDigits m e).2) := by
  simp [ftos, hm]

/-- The text of the float64 quotient `K / 10` is the decimal `K / 10` with at
most one decimal place, for every `K` below ten million. -/
theorem ftos_tenths (K : Nat) (hK : K < 10000000) :
    ftos (F64.div (F64.ofNat K) (F64.ofNat 10)) = tenthsText K := by
  rcases Nat.eq_zero_or_pos K with rfl | hK1
  · exact ftos_tenths_zero
  have h53 : K < 2 ^ 53 := lt_trans hK (by norm_num)
  obtain ⟨ma, ea, ha, hva, hca⟩ := ofNat_exact K h53
  have hKq1 : (1 : ℚ) ≤ (K : ℚ) := by exact_mod_cast hK1
  have hKq2 : (K : ℚ) < 10000000 := by exact_mod_cast hK
  have hcongr : roundPos false (scale2 ma 5629499534213120 (-49 - ea)).1
      (scale2 ma 5629499534213120 (-49 - ea)).2 = roundPos false K 10 := by
    refine roundPos_congr false _ _ _ _ (scale2_den_pos _ _ _ (by norm_num)) (by norm_num) ?_
    rw [scale2_val _ _ _ (by norm_num), ← hva]
    have : (2 : ℚ) ^ (-(-49 - ea)) = 2 ^ 49 * (2 : ℚ) ^ ea := by
      rw [show -(-49 - ea) = 49 + ea by ring, two_zpow_add 49 49 _ rfl]
    rw [this]
    push_cast
    field_simp
    ring
  have hq_lo : (2 : ℚ) ^ (-1021 : ℤ) ≤ ((K : ℕ) : ℚ) / ((10 : ℕ) : ℚ) := by
    refine le_trans tiny_le ?_
    push_cast
    rw [div_le_div_iff₀ (by norm_num : (0 : ℚ) < 10 ^ 9) (by norm_num : (0 : ℚ) < 10)]
    linarith
  have hq_hi : ((K : ℕ) : ℚ) / ((10 : ℕ) : ℚ) ≤ 2 ^ 30 := by
    push_cast
    rw [div_le_iff₀ (by norm_num)]
    norm_num
    linarith
  obtain ⟨m, e, hx⟩ : ∃ m e, roundPos false K 10 = .fin false m e := by
    rcases roundPos_cases false K 10 (by norm_num) with ⟨hbig, _⟩ | ⟨_, m, e, r, _⟩
    · exact absurd hbig (not_le.mpr (preVal_lt_of_small _ _ (by norm_num) hq_lo hq_hi))
    · exact ⟨m, e, r⟩
  obtain ⟨_, _, _, hm52, _, _⟩ := roundPos_interval K 10 m e (by norm_num) hq_lo hx
  have hm0 : m ≠ 0 := by
    have : 0 < 2 ^ 52 := by norm_num
    omega
  obtain ⟨D, r, hD, hD10, hsd⟩ := shortestDigits_tenths K m e hK1 hK hx
  rw [ofNat_ten, ha, div_const_fin ma _ ea _ (by norm_num), hcongr, hx, ftos_fin m e hm0, hsd,
    fmtG_tenths D r K hK1 hK hD hD10]
  rfl

/-! ## Memory formatter -/

theorem formatBytesAsGB_zero :
    formatBytesAsGB 0 = F64.div (F64.ofNat (gbTenths 0)) (F64.ofNat 10) := by decide!

/-- Below 999,999.95 GB `formatBytesAsGB` is the float64 quotient by 10 of the
byte count in tenths of a gigabyte, rounded to the nearest tenth (halves up). -/
theorem formatBytesAsGB_tenths (value : Nat) (h : value < 999999950000000) :
    formatBytesAsGB value = F64.div (F64.ofNat (gbTenths value)) (F64.ofNat 10) := by
  rcases Nat.eq_zero_or_pos value with rfl | hpos
  · exact formatBytesAsGB_zero
  have h53 : value < 2 ^ 53 := lt_trans h (by norm_num)
  obtain ⟨ma, ea, ha, hva, hca⟩ := ofNat_exact value h53
  have hvq1 : (1 : ℚ) ≤ (value : ℚ) := by exact_mod_cast hpos
  have hvq2 : (value : ℚ) < 999999950000000 := by exact_mod_cast h
  -- y = float64(value) / 1e9
  have hqy_lo : (2 : ℚ) ^ (-1021 : ℤ) ≤ ((value : ℕ) : ℚ) / ((1000000000 : ℕ) : ℚ) := by
    refine le_trans tiny_le ?_
    push_cast
    rw [div_le_div_iff₀ (by norm_num) (by norm_num)]
    linarith
  have hqy_hi : ((value : ℕ) : ℚ) / ((1000000000 : ℕ) : ℚ) ≤ 2 ^ 30 := by
    push_cast
    rw [div_le_iff₀ (by norm_num)]
    norm_num
    linarith
  have hy_congr : roundPos false (scale2 ma 8388608000000000 (-23 - ea)).1
      (scale2 ma 8388608000000000 (-23 - ea)).2 = roundPos false value 1000000000 := by
    refine roundPos_congr false _ _ _ _ (scale2_den_pos _ _ _ (by norm_num)) (by norm_num) ?_
    rw [scale2_val _ _ _ (by norm_num), ← hva]
    have : (2 : ℚ) ^ (-(-23 - ea)) = 2 ^ 23 * (2 : ℚ) ^ ea := by
      rw [show -(-23 - ea) = 23 + ea by ring, two_zpow_add 23 23 _ rfl]
    rw [this]
    push_cast
    field_simp
    ring
  obtain ⟨my, ey, hy, hvy, hcy⟩ : ∃ m e, roundPos false value 1000000000 = .fin false m e ∧
      (m : ℚ) * (2 : ℚ) ^ e = preVal value 1000000000 ∧ Canon m e := by
    rcases roundPos_cases false value 1000000000 (by norm_num) with ⟨hbig, _⟩ | ⟨_, r⟩
    · exact absurd hbig (not_le.mpr (preVal_lt_of_small _ _ (by norm_num) hqy_lo hqy_hi))
    · exact r
  have hrel_y := abs_le.mp (preVal_rel value 1000000000 (by norm_num) hqy_lo)
  -- z = y * 10
  have hqz : ((scale2 (my * 5629499534213120) 1 (-(ey + -49))).1 : ℚ) /
      ((scale2 (my * 5629499534213120) 1 (-(ey + -49))).2 : ℚ) =
      10 * preVal value 1000000000 := by
    rw [scale2_val _ _ _ Nat.one_pos, ← hvy]
    have : (2 : ℚ) ^ (-(-(ey + -49))) = (2 : ℚ) ^ ey / 2 ^ 49 := by
      rw [neg_neg, zpow_add₀ (by norm_num : (2 : ℚ) ≠ 0)]
      norm_num
      ring
    rw [this]
    push_cast
    field_simp
    ring
  have hdz := scale2_den_pos (my * 5629499534213120) 1 (-(ey + -49)) Nat.one_pos
  have hy0 : (0 : ℚ) ≤ ((value : ℕ) : ℚ) / ((1000000000 : ℕ) : ℚ) := by positivity
  have hqz_lo : (2 : ℚ) ^ (-1021 : ℤ) ≤
      ((scale2 (my * 5629499534213120) 1 (-(ey + -49))).1 : ℚ) /
      ((scale2 (my * 5629499534213120) 1 (-(ey + -49))).2 : ℚ) := by
    rw [hqz]
    have : ((value : ℕ) : ℚ) / ((1000000000 : ℕ) : ℚ) / 2 ^ 53 ≤
        ((value : ℕ) : ℚ) / ((1000000000 : ℕ) : ℚ) / 2 := by
      apply div_le_div_of_nonneg_left hy0 (by norm_num) (by norm_num)
    refine le_trans hqy_lo ?_
    linarith [hrel_y.1]
  have hqz_hi : ((scale2 (my * 5629499534213120) 1 (-(ey + -49))).1 : ℚ) /
      ((scale2 (my * 5629499534213120) 1 (-(ey + -49))).2 : ℚ) ≤ 2 ^ 30 := by
    rw [hqz]
    have : ((value : ℕ) : ℚ) / ((1000000000 : ℕ) : ℚ) / 2 ^ 53 ≤
        ((value : ℕ) : ℚ) / ((1000000000 : ℕ) : ℚ) :=
      div_le_self hy0 (by norm_num)
    have hq : ((value : ℕ) : ℚ) / ((1000000000 : ℕ) : ℚ) ≤ 1000000 := by
      push_cast
      rw [div_le_iff₀ (by norm_num)]
      linarith
    norm_num
    linarith [hrel_y.2]
  obtain ⟨mz, ez, hz, hvz, hcz⟩ : ∃ m e,
      roundPos false (scale2 (my * 5629499534213120) 1 (-(ey + -49))).1
        (scale2 (my * 5629499534213120) 1 (-(ey + -49))).2 = .fin false m e ∧
      (m : ℚ) * (2 : ℚ) ^ e = preVal (scale2 (my * 5629499534213120) 1 (-(ey + -49))).1
        (scale2 (my * 5629499534213120) 1 (-(ey + -49))).2 ∧ Canon m e := by
    rcases roundPos_cases false (scale2 (my * 5629499534213120) 1 (-(ey + -49))).1
      (scale2 (my * 5629499534213120) 1 (-(ey + -49))).2 hdz with ⟨hbig, _⟩ | ⟨_, r⟩
    · exact absurd hbig (not_le.mpr (preVal_lt_of_small _ _ hdz hqz_lo hqz_hi))
    · exact r
  have hrel_z := abs_le.mp (preVal_rel _ _ hdz hqz_lo)
  rw [hqz] at hrel_z
  -- the rounded value
  have hfl : ⌊(mz : ℚ) * (2 : ℚ) ^ ez + 1 / 2⌋₊ = gbTenths value := by
    apply floor_tenths
    · rw [hvz, abs_le]
      have hq : ((value : ℕ) : ℚ) / ((1000000000 : ℕ) : ℚ) = (value : ℚ) / 10 ^ 8 / 10 := by
        push_cast; rw [div_div]; norm_num
      rw [hq] at hrel_y
      have ht0 : (0 : ℚ) ≤ (value : ℚ) / 10 ^ 8 := by positivity
      have ht1 : (value : ℚ) / 10 ^ 8 ≤ 10000000 := by
        rw [div_le_iff₀ (by norm_num)]; linarith
      have hu : (value : ℚ) / 10 ^ 8 / 10 / 2 ^ 53 ≤ 1 / (9 * 10 ^ 9) := by
        rw [div_div, div_div, div_le_div_iff₀ (by norm_num) (by norm_num)]
        norm_num
        linarith
      have hu0 : (0 : ℚ) ≤ (value : ℚ) / 10 ^ 8 / 10 / 2 ^ 53 := by positivity
      have hy2 : preVal value 1000000000 ≤ 2 * ((value : ℚ) / 10 ^ 8 / 10) := by
        have : (value : ℚ) / 10 ^ 8 / 10 / 2 ^ 53 ≤ (value : ℚ) / 10 ^ 8 / 10 :=
          div_le_self (by positivity) (by norm_num)
        linarith [hrel_y.2]
      have hzerr : 10 * preVal value 1000000000 / 2 ^ 53 ≤ 2 / (9 * 10 ^ 8) := by
        have h1 : 10 * preVal value 1000000000 / 2 ^ 53 ≤
            20 * ((value : ℚ) / 10 ^ 8 / 10 / 2 ^ 53) := by
          rw [div_le_iff₀ (by norm_num)]
          have : 20 * ((value : ℚ) / 10 ^ 8 / 10 / 2 ^ 53) * 2 ^ 53 =
              20 * ((value : ℚ) / 10 ^ 8 / 10) := by field_simp; ring
          rw [this]; linarith
        have h2 : (20 : ℚ) * (1 / (9 * 10 ^ 9)) = 2 / (9 * 10 ^ 8) := by norm_num
        linarith
      have e1 : (1 : ℚ) / (9 * 10 ^ 9) * 10 + 2 / (9 * 10 ^ 8) ≤ 4 / 10 ^ 9 := by norm_num
      constructor
      · linarith [hrel_y.1, hrel_z.1]
      · linarith [hrel_y.2, hrel_z.2]
    · intro J hJ
      rw [hvz]
      have hJ1 : 1 ≤ J := by omega
      have hJ2 : J ≤ 10000000 := by omega
      refine tie_step J value 1000000000 _ _ hJ1 hJ2 (by norm_num) hdz ?_ hqz
      have hJq : (2 : ℚ) * value + 100000000 = 200000000 * J := by exact_mod_cast hJ
      push_cast
      rw [div_eq_div_iff (by norm_num) (by norm_num)]
      linarith
  unfold formatBytesAsGB
  rw [ofNat_billion, ofNat_ten, ha, div_const_fin ma _ ea _ (by norm_num), hy_congr, hy,
    mul_const_fin my _ ey _, hz, mathRound_eq mz ez hcz, hfl, F64.ofNat]

theorem formatBytesAsGB_good (value : Nat) : Good (formatBytesAsGB value) := by
  unfold formatBytesAsGB
  rw [ofNat_ten, ofNat_billion]
  exact div_const_good _ _ _ (by norm_num) (mathRound_good _ (mul_const_good _ _ _ (by norm_num)
    (div_const_good _ _ _ (by norm_num) (roundPos_good value 1 Nat.one_pos))))

theorem formatBytesAsGB_NNLe (used total : Nat) (h : used ≤ total) :
    NNLe (formatBytesAsGB used) (formatBytesAsGB total) := by
  have h0 : NNLe (F64.ofNat used) (F64.ofNat total) :=
    roundPos_mono used 1 total 1 Nat.one_pos Nat.one_pos (by
      simpa using (show (used : ℚ) ≤ (total : ℚ) by exact_mod_cast h))
  have g0 : ∀ v, Good (F64.ofNat v) := fun v => roundPos_good v 1 Nat.one_pos
  unfold formatBytesAsGB
  rw [ofNat_ten, ofNat_billion]
  have g1 := fun v => div_const_good _ 8388608000000000 (-23) (by norm_num) (g0 v)
  have h1 := div_const_mono _ _ 8388608000000000 (-23) (by norm_num) (g0 used) h0
  have g2 := fun v => mul_const_good _ 5629499534213120 (-49) (by norm_num) (g1 v)
  have h2 := mul_const_mono _ _ 5629499534213120 (-49) (by norm_num) (g1 used) h1
  have g3 := fun v => mathRound_good _ (g2 v)
  have h3 := mathRound_mono _ _ (g2 used) (g2 total) h2
  exact div_const_mono _ _ 5629499534213120 (-49) (by norm_num) (g3 used) h3

/-- C5: `formatBytesAsGB` is monotone: for byte counts `used ≤ total` the
gigabyte value computed for `used` is `<=` the one computed for `total`, so
the usedGB of `getMemoryUsage` never exceeds its totalGB. -/
theorem formatBytesAsGB_mono (used total : Nat) (h : used ≤ total) :
    F64.le (formatBytesAsGB used) (formatBytesAsGB total) = true :=
  le_of_NNLe _ _ (formatBytesAsGB_NNLe used total h)

/-- Witness of C5: 8.5 GB used of 16 GB. -/
theorem formatBytesAsGB_mono_witness :
    F64.le (formatBytesAsGB 8500000000) (formatBytesAsGB 16000000000) = true :=
  formatBytesAsGB_mono 8500000000 16000000000 (by decide)

theorem gbTenths_lt (value : Nat) (h : value < 999999950000000) :
    gbTenths value < 10000000 := by
  unfold gbTenths
  omega

/-- C4 (amended): for every memory snapshot whose used and total byte counts
are below 999,999,950,000,000, `getMemoryUsage` returns "Memory Usage: p%
(uGB/tGB)" and a newline, where p is the text of `math.Round` of the used
percentage and u, t are the byte counts divided by 1,000,000,000 and rounded
to one decimal place (halves up), printed in plain decimal notation with whole
numbers carrying no fractional part. -/
theorem getMemoryUsage_text (Used Total : Nat) (UsedPercent : F64)
    (hU : Used < 999999950000000) (hT : Total < 999999950000000) :
    getMemoryUsage Used Total UsedPercent =
      "Memory Usage: " ++ ftos (mathRound UsedPercent) ++ "% (" ++ tenthsText (gbTenths Used) ++
        "GB/" ++ tenthsText (gbTenths Total) ++ "GB)\n" := by
  unfold getMemoryUsage
  rw [formatBytesAsGB_tenths Used hU, formatBytesAsGB_tenths Total hT,
    ftos_tenths _ (gbTenths_lt Used hU), ftos_tenths _ (gbTenths_lt Total hT)]

/-- Witness of C4: used = 8,500,000,000, total = 16,000,000,000 and
usedPercent = 53.1 give "Memory Usage: 53% (8.5GB/16GB)". -/
theorem getMemoryUsage_text_witness :
    getMemoryUsage 8500000000 16000000000 (F64.div (F64.ofNat 531) (F64.ofNat 10)) =
      "Memory Usage: 53% (8.5GB/16GB)\n" :=
  (getMemoryUsage_text 8500000000 16000000000 (F64.div (F64.ofNat 531) (F64.ofNat 10))
    (by decide) (by decide)).trans (by decide!)

/-- C4 (counterexample): a total of 1,100,000,000,000,000 bytes is the whole
number 1,100,000 of gigabytes, yet it is printed "1.1e+06GB", with a fractional
part; and 6,710,893,649,999,999 bytes, 6710893.6 GB to one decimal place, come
out as the float64 quotient 67108937 / 10. -/
theorem getMemoryUsage_large_counterexample :
    getMemoryUsage 0 1100000000000000 F64.zero = "Memory Usage: 0% (0GB/1.1e+06GB)\n" ∧
    formatBytesAsGB 1100000000000000 = F64.ofNat 1100000 ∧
    tenthsText (gbTenths 1100000000000000) = "1100000" ∧
    formatBytesAsGB 6710893649999999 = F64.div (F64.ofNat 67108937) (F64.ofNat 10) ∧
    gbTenths 6710893649999999 = 67108936 := by
  refine ⟨by decide!, by decide!, by decide!, by decide!, by decide!⟩

/-! ## Whole numbers in float64 -/

theorem ofInt_natCast (n : Nat) : F64.ofInt (n : Int) = F64.ofNat n := by
  have h : decide ((n : Int) < 0) = false := by
    simp only [decide_eq_false_iff_not, not_lt]; omega
  simp only [F64.ofInt, F64.ofNat, h, Int.natAbs_ofNat]

theorem itos_natCast (n : Nat) : itos (n : Int) = String.mk (natDigits n) := by
  simp [itos]

theorem zero_eq_ofNat : F64.zero = F64.ofNat 0 := by decide!

theorem ofNat_mant_ne_zero (b m : Nat) (e : Int) (hb : 1 ≤ b)
    (hv : (m : ℚ) * (2 : ℚ) ^ e = b) : m ≠ 0 := by
  rintro rfl
  have hbq : (1 : ℚ) ≤ (b : ℚ) := by exact_mod_cast hb
  simp at hv
  linarith

theorem div_ofNat (a b : Nat) (ha : a < 2 ^ 53) (hb1 : 1 ≤ b) (hb : b < 2 ^ 53) :
    F64.div (F64.ofNat a) (F64.ofNat b) = roundPos false a b := by
  obtain ⟨ma, ea, hA, hva, _⟩ := ofNat_exact a ha
  obtain ⟨mb, eb, hB, hvb, _⟩ := ofNat_exact b hb
  have hmb := ofNat_mant_ne_zero b mb eb hb1 hvb
  have hmbq : (mb : ℚ) ≠ 0 := by exact_mod_cast hmb
  have hbq : (b : ℚ) ≠ 0 := by
    have : (1 : ℚ) ≤ (b : ℚ) := by exact_mod_cast hb1
    linarith
  rw [hA, hB, div_const_fin ma mb ea eb hmb]
  refine roundPos_congr false _ _ _ _ (scale2_den_pos _ _ _ (Nat.pos_of_ne_zero hmb))
    (by omega) ?_
  rw [scale2_val _ _ _ (Nat.pos_of_ne_zero hmb), ← hva, ← hvb]
  have : (2 : ℚ) ^ (-(eb - ea)) = (2 : ℚ) ^ ea / (2 : ℚ) ^ eb := by
    rw [neg_sub, zpow_sub₀ (by norm_num : (2 : ℚ) ≠ 0)]
  rw [this]
  field_simp

theorem add_ofNat (a b : Nat) (h : a + b < 2 ^ 53) :
    F64.add (F64.ofNat a) (F64.ofNat b) = F64.ofNat (a + b) := by
  obtain ⟨ma, ea, hA, hva, _⟩ := ofNat_exact a (by omega)
  obtain ⟨mb, eb, hB, hvb, _⟩ := ofNat_exact b (by omega)
  have ca := alignedInt_cast ma ea (min ea eb) (min_le_left _ _)
  have cb := alignedInt_cast mb eb (min ea eb) (min_le_right _ _)
  have hsum : ((alignedInt false ma ea (min ea eb) + alignedInt false mb eb (min ea eb) : ℤ) : ℚ) =
      ((a + b : ℕ) : ℚ) * (2 : ℚ) ^ (-(min ea eb)) := by
    push_cast
    rw [ca, cb, hva, hvb]
    ring
  have hpos : (0 : ℚ) < (2 : ℚ) ^ (-(min ea eb)) := by positivity
  have hnn : 0 ≤ alignedInt false ma ea (min ea eb) + alignedInt false mb eb (min ea eb) := by
    have : (0 : ℚ) ≤ ((alignedInt false ma ea (min ea eb) +
        alignedInt false mb eb (min ea eb) : ℤ) : ℚ) := by
      rw [hsum]; positivity
    exact_mod_cast this
  rw [hA, hB]
  simp only [F64.add]
  split
  · rename_i h0
    rw [h0] at hsum
    have hab : ((a + b : ℕ) : ℚ) = 0 := by
      have := hsum.symm
      simp only [Int.cast_zero, mul_eq_zero] at this
      rcases this with h | h
      · exact h
      · exact absurd h hpos.ne'
    have hab' : a + b = 0 := by exact_mod_cast hab
    rw [hab']
    decide!
  · rename_i h0
    have hneg : decide (alignedInt false ma ea (min ea eb) +
        alignedInt false mb eb (min ea eb) < 0) = false := by
      simp only [decide_eq_false_iff_not, not_lt]; exact hnn
    rw [hneg]
    unfold F64.ofNat
    refine roundPos_congr false _ _ _ _ (scale2_den_pos _ _ _ Nat.one_pos) Nat.one_pos ?_
    rw [scale2_val _ _ _ Nat.one_pos]
    have hcast : (((alignedInt false ma ea (min ea eb) +
        alignedInt false mb eb (min ea eb)).natAbs : ℕ) : ℚ) =
        ((alignedInt false ma ea (min ea eb) + alignedInt false mb eb (min ea eb) : ℤ) : ℚ) := by
      rw [← Int.cast_natCast, Int.natAbs_of_nonneg hnn]
    rw [hcast, hsum, neg_neg]
    have : (2 : ℚ) ^ (-(min ea eb)) * (2 : ℚ) ^ (min ea eb) = 1 := by
      rw [← zpow_add₀ (by norm_num : (2 : ℚ) ≠ 0)]; simp
    push_cast
    rw [div_one, div_one, mul_assoc, this, mul_one]

theorem foldl_add_ofNat (ns : List Nat) (acc : Nat) (h : acc + ns.sum < 2 ^ 53) :
    (ns.map F64.ofNat).foldl F64.add (F64.ofNat acc) = F64.ofNat (acc + ns.sum) := by
  induction ns generalizing acc with
  | nil => simp
  | cons n ns ih =>
    simp only [List.sum_cons] at h
    simp only [List.map_cons, List.foldl_cons, List.sum_cons]
    rw [add_ofNat acc n (by omega), ih (acc + n) (by omega), Nat.add_assoc]

theorem preVal_zero (d : Nat) : preVal 0 d = 0 := by
  have h1 : (scale2 0 d (binadeExp 0 d)).1 = 0 := by
    unfold scale2; split <;> simp
  unfold preVal binadeMant
  rw [h1]
  simp [roundHalfEven]

theorem preVal_nonneg (n d : Nat) : 0 ≤ preVal n d := by
  unfold preVal; positivity

theorem preVal_half_exact (b : Nat) (hb : b < 2 ^ 53) : preVal b 2 = (b : ℚ) / 2 := by
  obtain ⟨a1, a2, a3, a4⟩ := binadeExp_spec b 2 (by norm_num)
  have hbq : (b : ℚ) < 2 ^ 53 := by exact_mod_cast hb
  have he : binadeExp b 2 ≤ -1 := by
    by_contra hgt
    have hlow := a4 (by omega)
    have hpow : (2 : ℚ) ^ (52 : ℤ) ≤ (2 : ℚ) ^ (52 + binadeExp b 2) :=
      zpow_le_zpow_right₀ (by norm_num) (by omega)
    push_cast at hlow
    norm_num at hpow
    linarith
  obtain ⟨k, hk⟩ := Int.eq_ofNat_of_zero_le (show 0 ≤ -(binadeExp b 2) - 1 by omega)
  have hM : binadeMant b 2 = b * 2 ^ k := by
    unfold binadeMant
    apply roundHalfEven_exact _ _ _ (scale2_den_pos _ _ _ (by norm_num))
    rw [scale2_val _ _ _ (by norm_num), show -(binadeExp b 2) = ((k + 1 : ℕ) : ℤ) by push_cast; omega,
      zpow_natCast]
    push_cast
    rw [pow_succ]
    ring
  unfold preVal
  rw [hM]
  have : binadeExp b 2 = -((k + 1 : ℕ) : ℤ) := by push_cast; omega
  rw [this, zpow_neg, zpow_natCast]
  push_cast
  rw [pow_succ]
  field_simp
  ring

/-- A rounded quotient in the range of the formatters is finite, and
`math.Round` of it is the conversion of the floor of its value plus a half. -/
theorem mathRound_roundPos (n d : Nat) (hd : 0 < d) (hhi : (n : ℚ) / d ≤ 2 ^ 30)
    (hlo : n = 0 ∨ (2 : ℚ) ^ (-1021 : ℤ) ≤ (n : ℚ) / d) :
    ∃ m e, roundPos false n d = .fin false m e ∧ (m : ℚ) * (2 : ℚ) ^ e = preVal n d ∧
      Canon m e ∧ mathRound (roundPos false n d) = F64.ofNat ⌊preVal n d + 1 / 2⌋₊ := by
  have hsmall : preVal n d < (2 : ℚ) ^ (1024 : ℤ) := by
    rcases hlo with rfl | hlo
    · rw [preVal_zero]; positivity
    · exact preVal_lt_of_small n d hd hlo hhi
  rcases roundPos_cases false n d hd with ⟨hbig, _⟩ | ⟨_, m, e, hr, hv, hc⟩
  · exact absurd hbig (not_le.mpr hsmall)
  · refine ⟨m, e, hr, hv, hc, ?_⟩
    rw [hr, mathRound_eq m e hc, hv, F64.ofNat]

theorem ftos_ofNat (J : Nat) (hJ : J < 1000000) : ftos (F64.ofNat J) = String.mk (natDigits J) := by
  have h1 := ftos_tenths (10 * J) (by omega)
  have h53 : 10 * J < 2 ^ 53 := lt_trans (show 10 * J < 10000000 by omega) (by norm_num)
  rw [div_ofNat (10 * J) 10 h53 (by norm_num) (by norm_num)] at h1
  have hc : roundPos false (10 * J) 10 = roundPos false J 1 := by
    refine roundPos_congr false _ _ _ _ (by norm_num) Nat.one_pos ?_
    push_cast
    field_simp
  rw [hc] at h1
  unfold F64.ofNat
  rw [h1]
  unfold tenthsText
  have h2 : 10 * J / 10 = J := by omega
  have h3 : 10 * J % 10 = 0 := by omega
  rw [h2, h3, if_pos rfl, List.append_nil]

/-! ## CPU formatter -/

theorem cpuLoop_eq_foldl (vs : List F64) (n i : Nat) (acc : F64) (h : i + n = vs.length) :
    cpuLoop vs n i acc = (vs.drop i).foldl F64.add acc := by
  induction n generalizing i acc with
  | zero =>
    have hi : vs.length ≤ i := by omega
    simp [cpuLoop, List.drop_eq_nil_of_le hi]
  | succ n ih =>
    have hi : i < vs.length := by omega
    have hg : vs.getD i F64.zero = vs[i] := by
      simp [List.getD_eq_getElem?_getD, List.getElem?_eq_getElem hi]
    rw [cpuLoop, ih (i + 1) _ (by omega), hg]
    conv_rhs => rw [List.drop_eq_getElem_cons hi, List.foldl_cons]

theorem floor_mean (S N : Nat) (hN : 1 ≤ N) (hN2 : N < 2 ^ 53) (hS : 2 * S + 2 < 2 ^ 53)
    (hJ : 2 * ((2 * S + N) / (2 * N)) < 2 ^ 53) :
    ⌊preVal S N + 1 / 2⌋₊ = (2 * S + N) / (2 * N) := by
  have hNq : (0 : ℚ) < (N : ℚ) := by exact_mod_cast hN
  have hJ1 : 2 * N * ((2 * S + N) / (2 * N)) ≤ 2 * S + N := Nat.mul_div_le _ _
  have hJ2 : 2 * S + N < 2 * N * ((2 * S + N) / (2 * N) + 1) :=
    Nat.lt_mul_div_succ _ (by omega)
  have hJ1q : 2 * (N : ℚ) * (((2 * S + N) / (2 * N) : ℕ) : ℚ) ≤ 2 * (S : ℚ) + N := by
    exact_mod_cast hJ1
  have hJ2q : 2 * (S : ℚ) + N + 1 ≤ 2 * (N : ℚ) * ((((2 * S + N) / (2 * N) : ℕ) : ℚ) + 1) := by
    exact_mod_cast hJ2
  have hv0 := preVal_nonneg S N
  rw [Nat.floor_eq_iff (by linarith)]
  constructor
  · -- the mean is at least J - 1/2, a value float64 holds exactly
    rcases Nat.eq_zero_or_pos ((2 * S + N) / (2 * N)) with h0 | hpos
    · rw [h0]; simp; linarith
    · have hmono := preVal_mono (2 * ((2 * S + N) / (2 * N)) - 1) 2 S N (by norm_num) (by omega) (by
        have h1 : 1 ≤ 2 * ((2 * S + N) / (2 * N)) := by omega
        push_cast [Nat.cast_sub h1]
        rw [div_le_div_iff₀ (by norm_num : (0 : ℚ) < 2) hNq]
        nlinarith)
      rw [preVal_half_exact _ (by omega)] at hmono
      have h1 : 1 ≤ 2 * ((2 * S + N) / (2 * N)) := by omega
      push_cast [Nat.cast_sub h1] at hmono
      linarith
  · -- and stays below J + 1/2
    rcases Nat.eq_zero_or_pos S with rfl | hSpos
    · rw [preVal_zero]
      have : (0 : ℚ) ≤ (((2 * 0 + N) / (2 * N) : ℕ) : ℚ) := by positivity
      linarith
    · have hSq : (1 : ℚ) ≤ (S : ℚ) := by exact_mod_cast hSpos
      have hS2 : 2 * (S : ℚ) + 2 < 2 ^ 53 := by exact_mod_cast hS
      have hN2q : (N : ℚ) < 2 ^ 53 := by exact_mod_cast hN2
      have hlo : (2 : ℚ) ^ (-1021 : ℤ) ≤ (S : ℚ) / N := by
        have h1 : (2 : ℚ) ^ (-1021 : ℤ) ≤ (2 : ℚ) ^ (-53 : ℤ) :=
          zpow_le_zpow_right₀ (by norm_num) (by norm_num)
        have h2 : (2 : ℚ) ^ (-53 : ℤ) = 1 / 2 ^ 53 := by norm_num
        rw [h2] at h1
        refine le_trans h1 ?_
        rw [div_le_div_iff₀ (by norm_num) hNq]
        linarith
      have hrel := (abs_le.mp (preVal_rel S N (by omega) hlo)).2
      have hkey : (S : ℚ) * (1 + 1 / 2 ^ 53) <
          ((((2 * S + N) / (2 * N) : ℕ) : ℚ) + 1 / 2) * N := by
        have : (S : ℚ) * (1 / 2 ^ 53) < 1 / 2 := by
          rw [mul_one_div, div_lt_iff₀ (by norm_num)]
          linarith
        nlinarith
      have hv : preVal S N ≤ (S : ℚ) * (1 + 1 / 2 ^ 53) / N := by
        have : (S : ℚ) * (1 + 1 / 2 ^ 53) / N = (S : ℚ) / N + (S : ℚ) / N / 2 ^ 53 := by
          field_simp
          ring
        rw [this]; linarith
      have := (div_lt_iff₀ hNq).mpr hkey
      linarith

theorem sum_le_hundred (ns : List Nat) (h : ∀ n ∈ ns, n ≤ 100) : ns.sum ≤ 100 * ns.length := by
  induction ns with
  | nil => simp
  | cons n ns ih =>
    have h1 := h n (List.mem_cons_self _ _)
    have h2 := ih (fun k hk => h k (List.mem_cons_of_mem _ hk))
    simp only [List.sum_cons, List.length_cons]
    omega

/-- C1 (amended): for every non-empty list of whole-number samples between 0
and 100 (fewer than 2^40 of them) returned without error, `getCpuUsage` is
"CPU Usage: u% (N cores)" and a newline, where N is the number of samples and
u is their mean rounded to the nearest integer, halves away from zero. -/
theorem getCpuUsage_whole (ns : List Nat) (hne : ns ≠ []) (h100 : ∀ n ∈ ns, n ≤ 100)
    (hlen : ns.length < 2 ^ 40) :
    getCpuUsage (ns.map F64.ofNat) Option.none =
      "CPU Usage: " ++ wholeText (roundedMean ns) ++ "% (" ++ wholeText ns.length ++
        " cores)\n" := by
  have hN : 1 ≤ ns.length := List.length_pos.mpr hne
  have hS := sum_le_hundred ns h100
  have h40 : (2 : ℕ) ^ 40 * 202 < 2 ^ 53 := by norm_num
  have hJle : (2 * ns.sum + ns.length) / (2 * ns.length) ≤ 100 := by
    rw [Nat.div_le_iff_le_mul_add_pred (by omega)]
    omega
  obtain ⟨m, e, _, _, _, hround⟩ := mathRound_roundPos ns.sum ns.length (by omega)
    (by
      have : (ns.sum : ℚ) ≤ 100 * (ns.length : ℚ) := by exact_mod_cast hS
      have hNq : (0 : ℚ) < (ns.length : ℚ) := by exact_mod_cast hN
      rw [div_le_iff₀ hNq]
      exact le_trans this (mul_le_mul_of_nonneg_right (by norm_num) hNq.le))
    (by
      rcases Nat.eq_zero_or_pos ns.sum with h0 | hpos
      · exact Or.inl h0
      · right
        have hSq : (1 : ℚ) ≤ (ns.sum : ℚ) := by exact_mod_cast hpos
        have hNq : (0 : ℚ) < (ns.length : ℚ) := by exact_mod_cast hN
        have hN2 : (ns.length : ℚ) < 2 ^ 40 := by exact_mod_cast hlen
        have h1 : (2 : ℚ) ^ (-1021 : ℤ) ≤ (2 : ℚ) ^ (-40 : ℤ) :=
          zpow_le_zpow_right₀ (by norm_num) (by norm_num)
        have h2 : (2 : ℚ) ^ (-40 : ℤ) = 1 / 2 ^ 40 := by norm_num
        rw [h2] at h1
        refine le_trans h1 ?_
        rw [div_le_div_iff₀ (by norm_num) hNq]
        linarith)
  simp only [getCpuUsage]
  rw [cpuLoop_eq_foldl _ _ 0 _ (by simp), List.length_map, List.drop_zero, zero_eq_ofNat,
    foldl_add_ofNat ns 0 (by omega), Nat.zero_add, ofInt_natCast,
    div_ofNat ns.sum ns.length (by omega) hN (by omega), hround,
    floor_mean ns.sum ns.length hN (by omega) (by omega) (by omega),
    ftos_ofNat _ (by omega), itos_natCast]
  rfl

/-- Witness of C1: the samples 10, 20, 30, 40 give "CPU Usage: 25% (4 cores)". -/
theorem getCpuUsage_whole_witness :
    getCpuUsage [F64.ofNat 10, F64.ofNat 20, F64.ofNat 30, F64.ofNat 40] Option.none =
      "CPU Usage: 25% (4 cores)\n" :=
  (getCpuUsage_whole [10, 20, 30, 40] (by simp) (by simp) (by norm_num)).trans (by decide!)

/-- C1 (counterexample): the samples 48.1, 62, 29.7 and 26.2 (as float64
values) have the exact mean 41.5, which rounds to 42, yet the line reads 41%. -/
theorem getCpuUsage_float_counterexample :
    getCpuUsage [F64.div (F64.ofNat 481) (F64.ofNat 10), F64.ofNat 62,
      F64.div (F64.ofNat 297) (F64.ofNat 10), F64.div (F64.ofNat 262) (F64.ofNat 10)]
      Option.none = "CPU Usage: 41% (4 cores)\n" ∧
    (F64.toRat (F64.div (F64.ofNat 481) (F64.ofNat 10)) + F64.toRat (F64.ofNat 62) +
      F64.toRat (F64.div (F64.ofNat 297) (F64.ofNat 10)) +
      F64.toRat (F64.div (F64.ofNat 262) (F64.ofNat 10))) / 4 = 83 / 2 ∧
    ⌊(83 : ℚ) / 2 + 1 / 2⌋₊ = 42 := by
  have h1 : F64.div (F64.ofNat 481) (F64.ofNat 10) = .fin false 6769473189891277 (-47) := by
    decide!
  have h2 : F64.ofNat 62 = .fin false 8725724278030336 (-47) := by decide!
  have h3 : F64.div (F64.ofNat 297) (F64.ofNat 10) = .fin false 8359806808306483 (-48) := by
    decide!
  have h4 : F64.div (F64.ofNat 262) (F64.ofNat 10) = .fin false 7374644389819187 (-48) := by
    decide!
  refine ⟨by decide!, ?_, ?_⟩
  · rw [h1, h2, h3, h4]
    simp only [F64.toRat, Bool.false_eq_true, if_false]
    norm_num
  · rw [Nat.floor_eq_iff (by norm_num)]
    norm_num

/-- C6: when the sampler reports an error, `getCpuUsage` returns the zeroed
line "CPU Usage: 0% (0 cores)", whatever sample list came with the error. -/
theorem getCpuUsage_sampler_error (cpuCoreUsage : List F64) (e : String) :
    getCpuUsage cpuCoreUsage (some e) = "CPU Usage: 0% (0 cores)\n" := by
  show "CPU Usage: " ++ ftos F64.zero ++ "% (" ++ itos 0 ++ " cores)\n" = _
  decide!

/-- C8 (the failing input): for the empty sample list returned without error
the printed usage is "NaN", not an integer between 0 and 100. -/
theorem getCpuUsage_empty_list :
    getCpuUsage [] Option.none = "CPU Usage: NaN% (0 cores)\n" := by
  decide!

/-! ## Battery formatter -/

theorem batteryLoop_append (E : Option (List (Option String))) (xs ys : List Battery) (i : Nat)
    (acc : F64 × String) :
    batteryLoop E (xs ++ ys) i acc =
      (batteryLoop E xs i acc).bind (fun a => batteryLoop E ys (i + xs.length) a) := by
  induction xs generalizing i acc with
  | nil => simp [batteryLoop]
  | cons x xs ih =>
    have hi : i + (x :: xs).length = i + 1 + xs.length := by simp; omega
    rw [hi]
    cases E with
    | none =>
      simp only [List.cons_append, batteryLoop]
      exact ih _ _
    | some errs =>
      simp only [List.cons_append, batteryLoop]
      rcases hs : errs.get? i with _ | (_ | e)
      · simp
      · exact ih _ _
      · exact ih _ _

theorem batteryLoop_skip (E : Option (List (Option String))) (xs : List Battery) (i : Nat)
    (acc : F64 × String)
    (h : ∀ j, i ≤ j → j < i + xs.length → ∃ e, slotAt E j = some (some e)) :
    batteryLoop E xs i acc = some acc := by
  induction xs generalizing i with
  | nil => simp [batteryLoop]
  | cons x xs ih =>
    obtain ⟨e, he⟩ := h i (Nat.le_refl i) (by simp)
    have hrest : batteryLoop E xs (i + 1) acc = some acc :=
      ih (i + 1) (fun j hj hj2 => h j (by omega) (by simp; omega))
    cases E with
    | none => simp [slotAt] at he
    | some errs =>
      simp only [slotAt] at he
      simp only [batteryLoop, he, hrest]

theorem batteryLoop_total (E : Option (List (Option String))) (xs : List Battery) (i : Nat)
    (acc : F64 × String) (h : ∀ j, i ≤ j → j < i + xs.length → slotAt E j ≠ Option.none) :
    ∃ a, batteryLoop E xs i acc = some a := by
  induction xs generalizing i acc with
  | nil => exact ⟨acc, by simp [batteryLoop]⟩
  | cons x xs ih =>
    have h0 := h i (Nat.le_refl i) (by simp)
    have hrest : ∀ a, ∃ a2, batteryLoop E xs (i + 1) a = some a2 :=
      fun a => ih (i + 1) a (fun j hj hj2 => h j (by omega) (by simp; omega))
    cases E with
    | none => simpa only [batteryLoop] using hrest _
    | some errs =>
      simp only [slotAt] at h0
      simp only [batteryLoop]
      rcases hs : errs.get? i with _ | (_ | e)
      · exact absurd hs h0
      · exact hrest _
      · exact hrest _

theorem batteryLoop_read (E : Option (List (Option String))) (b : Battery) (post : List Battery)
    (i : Nat) (acc : F64 × String) (h : slotAt E i = some Option.none) :
    batteryLoop E (b :: post) i acc =
      batteryLoop E post (i + 1)
        (mathRound (F64.mul (F64.div b.Current b.Full) (F64.ofNat 100)), b.State.String) := by
  cases E with
  | none => simp only [batteryLoop]
  | some errs =>
    simp only [slotAt] at h
    simp only [batteryLoop, h]

theorem slotAt_before (E : Option (List (Option String))) (i j : Nat) (hj : j ≤ i)
    (h : slotAt E i ≠ Option.none) : slotAt E j ≠ Option.none := by
  cases E with
  | none => simp [slotAt]
  | some errs =>
    simp only [slotAt, ne_eq, List.get?_eq_none, not_le] at h ⊢
    omega

theorem getBatteryUsage_last_value (pre post : List Battery) (b : Battery)
    (batteryError : BatteryError)
    (hfatal : batteryError.isFatal = false)
    (hb : slotAt batteryError.asErrors pre.length = some Option.none)
    (hpost : ∀ j, pre.length < j → j < (pre ++ b :: post).length →
      ∃ e, slotAt batteryError.asErrors j = some (some e)) :
    getBatteryUsage (pre ++ b :: post) batteryError =
      some ("Battery Left: " ++
        ftos (mathRound (F64.mul (F64.div b.Current b.Full) (F64.ofNat 100))) ++
        "% (" ++ b.State.String ++ ")\n") := by
  have hne : slotAt batteryError.asErrors pre.length ≠ Option.none := by rw [hb]; simp
  obtain ⟨a, ha⟩ := batteryLoop_total batteryError.asErrors pre 0 (F64.zero, "")
    (fun j _ hj => slotAt_before _ pre.length j (by omega) hne)
  have hskip := batteryLoop_skip batteryError.asErrors post (pre.length + 1)
    (mathRound (F64.mul (F64.div b.Current b.Full) (F64.ofNat 100)), b.State.String)
    (fun j hj hj2 => hpost j (by omega) (by simp; omega))
  have hlen : ((pre ++ b :: post).length != 0) = true := by simp
  simp only [getBatteryUsage, hfatal, hlen, Bool.not_false, Bool.and_self, if_true]
  rw [batteryLoop_append, ha]
  simp only [Option.some_bind, Nat.zero_add]
  rw [batteryLoop_read _ _ _ _ _ hb, hskip]
  rfl

theorem preVal_rel_or_zero (n d : Nat) (hd : 0 < d)
    (hlo : n = 0 ∨ (2 : ℚ) ^ (-1021 : ℤ) ≤ (n : ℚ) / d) :
    |preVal n d - (n : ℚ) / d| ≤ (n : ℚ) / d / 2 ^ 53 := by
  rcases hlo with rfl | hlo
  · rw [preVal_zero]; simp
  · exact preVal_rel n d hd hlo

theorem ofNat_hundred : F64.ofNat 100 = .fin false 7036874417766400 (-46) := by decide!

theorem tiny_le_trillionth : (2 : ℚ) ^ (-1021 : ℤ) ≤ 1 / 1000000000000 := by
  have h1 : (2 : ℚ) ^ (-1021 : ℤ) ≤ (2 : ℚ) ^ (-40 : ℤ) :=
    zpow_le_zpow_right₀ (by norm_num) (by norm_num)
  have h2 : (2 : ℚ) ^ (-40 : ℤ) ≤ 1 / 1000000000000 := by norm_num
  exact le_trans h1 h2

/-- For whole-number capacities `current ≤ full ≤ 10^12` the loop body's
`math.Round(current / full * 100)` is a whole number nearest to the exact
percentage. -/
theorem percent_nearest (c f : Nat) (hf1 : 1 ≤ f) (hcf : c ≤ f) (hf : f ≤ 1000000000000) :
    ∃ p, IsNearestPercent c f p ∧ p ≤ 100 ∧
      mathRound (F64.mul (F64.div (F64.ofNat c) (F64.ofNat f)) (F64.ofNat 100)) =
        F64.ofNat p := by
  have hf53 : f < 2 ^ 53 := lt_of_le_of_lt hf (by norm_num)
  have hfq : (0 : ℚ) < (f : ℚ) := by exact_mod_cast hf1
  have hfq2 : (f : ℚ) ≤ 1000000000000 := by exact_mod_cast hf
  have hcq : (c : ℚ) ≤ (f : ℚ) := by exact_mod_cast hcf
  have hc0 : (0 : ℚ) ≤ (c : ℚ) := by positivity
  have hq1 : (c : ℚ) / f ≤ 1 := by rw [div_le_one hfq]; exact hcq
  have hq0 : (0 : ℚ) ≤ (c : ℚ) / f := by positivity
  have hlo : c = 0 ∨ (2 : ℚ) ^ (-1021 : ℤ) ≤ (c : ℚ) / f := by
    rcases Nat.eq_zero_or_pos c with h0 | hpos
    · exact Or.inl h0
    · right
      have hcq1 : (1 : ℚ) ≤ (c : ℚ) := by exact_mod_cast hpos
      refine le_trans tiny_le_trillionth ?_
      rw [div_le_div_iff₀ (by norm_num) hfq]
      linarith
  obtain ⟨my, ey, hy, hvy, _, _⟩ := mathRound_roundPos c f (by omega)
    (le_trans hq1 (by norm_num)) hlo
  have hrel_y := abs_le.mp (preVal_rel_or_zero c f (by omega) hlo)
  have hvy0 := preVal_nonneg c f
  -- z = y * 100
  have hdz := scale2_den_pos (my * 7036874417766400) 1 (-(ey + -46)) Nat.one_pos
  have hqz : ((scale2 (my * 7036874417766400) 1 (-(ey + -46))).1 : ℚ) /
      ((scale2 (my * 7036874417766400) 1 (-(ey + -46))).2 : ℚ) = 100 * preVal c f := by
    rw [scale2_val _ _ _ Nat.one_pos, ← hvy]
    have : (2 : ℚ) ^ (-(-(ey + -46))) = (2 : ℚ) ^ ey / 2 ^ 46 := by
      rw [neg_neg, zpow_add₀ (by norm_num : (2 : ℚ) ≠ 0)]
      norm_num
      ring
    rw [this]
    push_cast
    field_simp
    ring
  have hu : (c : ℚ) / f / 2 ^ 53 ≤ 1 / 2 ^ 53 :=
    div_le_div_of_nonneg_right hq1 (by norm_num)
  have hu0 : (0 : ℚ) ≤ (c : ℚ) / f / 2 ^ 53 := by positivity
  have hloz : (scale2 (my * 7036874417766400) 1 (-(ey + -46))).1 = 0 ∨
      (2 : ℚ) ^ (-1021 : ℤ) ≤ ((scale2 (my * 7036874417766400) 1 (-(ey + -46))).1 : ℚ) /
        ((scale2 (my * 7036874417766400) 1 (-(ey + -46))).2 : ℚ) := by
    rcases hlo with h0 | hpos
    · left
      subst h0
      rw [preVal_zero] at hvy
      have hmy : my = 0 := by
        have hp : (2 : ℚ) ^ ey ≠ 0 := by positivity
        have := (mul_eq_zero.mp hvy).resolve_right hp
        exact_mod_cast this
      subst hmy
      unfold scale2
      split <;> simp
    · right
      rw [hqz]
      have h12 : (c : ℚ) / f / 2 ^ 53 ≤ (c : ℚ) / f / 2 :=
        div_le_div_of_nonneg_left hq0 (by norm_num) (by norm_num)
      refine le_trans hpos ?_
      linarith [hrel_y.1]
  obtain ⟨mz, ez, hz, hvz, _, hround⟩ := mathRound_roundPos _ _ hdz
    (by
      rw [hqz]
      have : (2 : ℚ) ^ 30 = 1073741824 := by norm_num
      rw [this]
      linarith [hrel_y.2])
    hloz
  have hrel_z := abs_le.mp (preVal_rel_or_zero _ _ hdz hloz)
  rw [hqz] at hrel_z
  have hvz0 := preVal_nonneg (scale2 (my * 7036874417766400) 1 (-(ey + -46))).1
    (scale2 (my * 7036874417766400) 1 (-(ey + -46))).2
  generalize preVal (scale2 (my * 7036874417766400) 1 (-(ey + -46))).1
    (scale2 (my * 7036874417766400) 1 (-(ey + -46))).2 = vz at hrel_z hvz0 hround
  obtain ⟨P, hP⟩ : ∃ P : ℕ, ⌊vz + 1 / 2⌋₊ = P := ⟨_, rfl⟩
  rw [hP] at hround
  obtain ⟨hfl1, hfl2⟩ := (Nat.floor_eq_iff (show (0 : ℚ) ≤ vz + 1 / 2 by linarith)).mp hP
  -- closeness of the float64 value to the exact percentage
  have hzerr : 100 * preVal c f / 2 ^ 53 ≤ 200 / 2 ^ 53 := by
    apply div_le_div_of_nonneg_right _ (by norm_num)
    linarith [hrel_y.2]
  have e1 : (200 : ℚ) / 2 ^ 53 + 100 * (1 / 2 ^ 53) = 300 / 2 ^ 53 := by ring
  have ht : 100 * ((c : ℚ) / f) * f = 100 * c := by field_simp
  have hδ : (300 : ℚ) / 2 ^ 53 * (2 * f) < 1 := by
    have : (300 : ℚ) / 2 ^ 53 * (2 * f) ≤ 300 / 2 ^ 53 * (2 * 1000000000000) :=
      mul_le_mul_of_nonneg_left (by linarith) (by positivity)
    have h2 : (300 : ℚ) / 2 ^ 53 * (2 * 1000000000000) < 1 := by norm_num
    linarith
  have hup : 2 * P * f ≤ 200 * c + f := by
    have h1 : (P : ℚ) ≤ 100 * ((c : ℚ) / f) + 300 / 2 ^ 53 + 1 / 2 := by
      linarith [hrel_y.2, hrel_z.2]
    have h2 := mul_le_mul_of_nonneg_right h1 (show (0 : ℚ) ≤ 2 * f by positivity)
    have h3 : (100 * ((c : ℚ) / f) + 300 / 2 ^ 53 + 1 / 2) * (2 * f) =
        2 * (100 * ((c : ℚ) / f) * f) + 300 / 2 ^ 53 * (2 * f) + f := by ring
    rw [h3, ht] at h2
    have h4 : ((2 * P * f : ℕ) : ℚ) < ((200 * c + f + 1 : ℕ) : ℚ) := by
      push_cast
      linarith
    have h5 : 2 * P * f < 200 * c + f + 1 := by exact_mod_cast h4
    omega
  have hdown : 200 * c ≤ 2 * P * f + f := by
    have h1 : 100 * ((c : ℚ) / f) - 300 / 2 ^ 53 - 1 / 2 < (P : ℚ) := by
      linarith [hrel_y.1, hrel_z.1]
    have h2 := mul_lt_mul_of_pos_right h1 (show (0 : ℚ) < 2 * f by positivity)
    have h3 : (100 * ((c : ℚ) / f) - 300 / 2 ^ 53 - 1 / 2) * (2 * f) =
        2 * (100 * ((c : ℚ) / f) * f) - 300 / 2 ^ 53 * (2 * f) - f := by ring
    rw [h3, ht] at h2
    have h4 : ((200 * c : ℕ) : ℚ) < ((2 * P * f + f + 1 : ℕ) : ℚ) := by
      push_cast
      linarith
    have h5 : 200 * c < 2 * P * f + f + 1 := by exact_mod_cast h4
    omega
  have h100 : P ≤ 100 := by
    have h1 : (P : ℚ) < 101 := by
      have e2 : (300 : ℚ) / 2 ^ 53 < 1 / 2 := by norm_num
      linarith [hrel_y.2, hrel_z.2]
    have h2 : P < 101 := by exact_mod_cast h1
    omega
  refine ⟨P, ⟨hup, hdown⟩, h100, ?_⟩
  rw [div_ofNat c f (lt_of_le_of_lt hcf hf53) hf1 hf53, hy, ofNat_hundred,
    mul_const_fin my _ ey _, hround]

/-- C2 (amended): when the enumeration error is not fatal, a battery has a null
per-device error and every later battery a non-null one, and that battery's
capacities are whole numbers with current ≤ full ≤ 10^12, then
`getBatteryUsage` returns "Battery Left: p% (state)" and a newline, where state
is that battery's state and p is a nearest integer to current / full * 100:
the last readable battery wins. -/
theorem getBatteryUsage_last_readable (pre post : List Battery) (st : State) (c f : Nat)
    (batteryError : BatteryError)
    (hfatal : batteryError.isFatal = false)
    (hb : slotAt batteryError.asErrors pre.length = some Option.none)
    (hpost : ∀ j, pre.length < j →
      j < (pre ++ (Battery.mk st (F64.ofNat c) (F64.ofNat f)) :: post).length →
      ∃ e, slotAt batteryError.asErrors j = some (some e))
    (hf1 : 1 ≤ f) (hcf : c ≤ f) (hf : f ≤ 1000000000000) :
    ∃ p, IsNearestPercent c f p ∧
      getBatteryUsage (pre ++ (Battery.mk st (F64.ofNat c) (F64.ofNat f)) :: post) batteryError =
        some ("Battery Left: " ++ wholeText p ++ "% (" ++ st.String ++ ")\n") := by
  obtain ⟨p, hp, h100, hround⟩ := percent_nearest c f hf1 hcf hf
  refine ⟨p, hp, ?_⟩
  rw [getBatteryUsage_last_value pre post _ batteryError hfatal hb hpost]
  simp only []
  rw [hround, ftos_ofNat p (by omega)]
  rfl

/-- Witness of C2: of three batteries the first two are readable and the last
has a non-null per-device error; the second one, at 30 of 60, is reported. -/
theorem getBatteryUsage_last_readable_witness :
    (∃ p, IsNearestPercent 30 60 p ∧
      getBatteryUsage
        ([Battery.mk .Full (F64.ofNat 60) (F64.ofNat 60)] ++
          (Battery.mk .Discharging (F64.ofNat 30) (F64.ofNat 60)) ::
          [Battery.mk .Charging (F64.ofNat 10) (F64.ofNat 60)])
        (.Errors [Option.none, Option.none, some "no battery"]) =
        some ("Battery Left: " ++ wholeText p ++ "% (" ++ State.String .Discharging ++ ")\n")) ∧
    getBatteryUsage
      [Battery.mk .Full (F64.ofNat 60) (F64.ofNat 60),
        Battery.mk .Discharging (F64.ofNat 30) (F64.ofNat 60),
        Battery.mk .Charging (F64.ofNat 10) (F64.ofNat 60)]
      (.Errors [Option.none, Option.none, some "no battery"]) =
      some "Battery Left: 50% (Discharging)\n" :=
  ⟨getBatteryUsage_last_readable [Battery.mk .Full (F64.ofNat 60) (F64.ofNat 60)]
    [Battery.mk .Charging (F64.ofNat 10) (F64.ofNat 60)] .Discharging 30 60
    (.Errors [Option.none, Option.none, some "no battery"]) rfl rfl
    (fun j h1 h2 => by
      have hj : j = 2 := by simp at h1 h2; omega
      subst hj
      exact ⟨"no battery", rfl⟩) (by decide) (by decide) (by decide), by decide!⟩

/-- C2 (counterexample): a single readable battery with current 23 and full 40
is at exactly 57.5 %, which rounds to 58, yet the line reads 57%. -/
theorem getBatteryUsage_half_counterexample :
    getBatteryUsage [Battery.mk .Discharging (F64.ofNat 23) (F64.ofNat 40)] .nil =
      some "Battery Left: 57% (Discharging)\n" ∧
    2 * (100 * 23) = 115 * 40 ∧ (2 * (100 * 23) + 40) / (2 * 40) = 58 := by
  refine ⟨by decide!, by decide, by decide⟩

theorem batteryLine_ne_empty (c : F64) (st : String) :
    ("Battery Left: " ++ ftos c ++ "% (" ++ st ++ ")\n") ≠ "" := by
  intro h
  have hl := congrArg String.length h
  simp only [String.length_append] at hl
  have h1 : "Battery Left: ".length = 14 := by decide
  have h2 : "".length = 0 := by decide
  omega

/-- C3: `getBatteryUsage` returns the empty string if and only if the
enumeration error is fatal or the battery list is empty; with a fatal error
the result is the empty string whatever the list and per-device errors. -/
theorem getBatteryUsage_empty_iff :
    (∀ batteries : List Battery, getBatteryUsage batteries .ErrFatal = some "") ∧
    (∀ (batteries : List Battery) (batteryError : BatteryError),
      getBatteryUsage batteries batteryError = some "" ↔
        (batteryError.isFatal = true ∨ batteries = [])) := by
  refine ⟨fun batteries => by simp [getBatteryUsage, BatteryError.isFatal], ?_⟩
  intro batteries batteryError
  by_cases hf : batteryError.isFatal = true
  · simp [getBatteryUsage, hf]
  · have hf2 : batteryError.isFatal = false := by simpa using hf
    cases batteries with
    | nil => simp [getBatteryUsage]
    | cons b rest =>
      have hlen : (((b :: rest).length != 0) = true) := by simp
      simp only [getBatteryUsage, hf2, hlen, Bool.not_false, Bool.and_self, if_true,
        Bool.false_eq_true, false_or]
      constructor
      · intro h
        rcases hl : batteryLoop batteryError.asErrors (b :: rest) 0 (F64.zero, "") with _ | r
        · rw [hl] at h; simp at h
        · rw [hl] at h
          simp only [Option.map_some', Option.some.injEq] at h
          exact absurd h (batteryLine_ne_empty r.1 r.2)
      · intro h
        exact absurd h (by simp)

/-- C10: for a non-empty battery list with a non-fatal enumeration error in
which every battery has a non-null per-device error, `getBatteryUsage` returns
"Battery Left: 0% ()" (initial charge, empty state label), not the empty string. -/
theorem getBatteryUsage_all_partial (batteries : List Battery) (errs : List (Option String))
    (hne : batteries ≠ []) (hlen : errs.length = batteries.length)
    (hall : ∀ e ∈ errs, e ≠ Option.none) :
    getBatteryUsage batteries (.Errors errs) = some "Battery Left: 0% ()\n" := by
  have hskip := batteryLoop_skip (some errs) batteries 0 (F64.zero, "")
    (fun j _ hj => by
      have hj2 : j < errs.length := by omega
      have hmem : errs[j] ∈ errs := List.getElem_mem hj2
      have hsome := hall _ hmem
      rcases hv : errs[j] with _ | e
      · exact absurd hv hsome
      · exact ⟨e, by simp [slotAt, List.getElem?_eq_getElem hj2, hv]⟩)
  have hl : (batteries.length != 0) = true := by
    cases batteries with
    | nil => exact absurd rfl hne
    | cons b rest => simp
  simp only [getBatteryUsage, BatteryError.isFatal, BatteryError.asErrors, hl, Bool.not_false,
    Bool.and_self, if_true, hskip, Option.map_some']
  decide!

/-- Witness of C10: two battery bays, both reported with a per-device error. -/
theorem getBatteryUsage_all_partial_witness :
    getBatteryUsage [⟨.Unknown, F64.ofNat 30, F64.ofNat 60⟩, ⟨.Full, F64.ofNat 60, F64.ofNat 60⟩]
      (.Errors [some "bay empty", some "bay empty"]) = some "Battery Left: 0% ()\n" :=
  getBatteryUsage_all_partial _ _ (by simp) rfl (by simp)

/-! ## Event loop -/

/-- C7: from `Running`, an input event terminates the loop exactly when its
identifier is "q" or "<C-c>"; any other event leaves the loop `Running`; no
event triggers a draw. -/
theorem step_event (ID : String) :
    ((step .Running (.event ID)).1 = .Terminated ↔ (ID = "q" ∨ ID = "<C-c>")) ∧
    ((step .Running (.event ID)).1 = .Running ↔ ¬ (ID = "q" ∨ ID = "<C-c>")) ∧
    (step .Running (.event ID)).2 = 0 := by
  unfold step
  by_cases h : ID = "q" ∨ ID = "<C-c>"
  · simp [h]
  · simp [h]

theorem isQuit_event (ID : String) :
    isQuit (.event ID) = decide (ID = "q" ∨ ID = "<C-c>") := rfl

theorem runLoop_draws (inputs : List LoopInput) (draws : Nat) :
    (runLoop .Running draws inputs).2 =
      draws + ((inputs.takeWhile (fun i => !isQuit i)).filter isTick).length := by
  induction inputs generalizing draws with
  | nil => simp [runLoop]
  | cons i rest ih =>
    cases i with
    | tick =>
      have hq : isQuit .tick = false := rfl
      have ht : isTick .tick = true := rfl
      have hs : runLoop .Running draws (.tick :: rest) = runLoop .Running (draws + 1) rest := rfl
      rw [hs, ih, List.takeWhile_cons]
      simp only [hq, Bool.not_false, if_true, List.filter_cons, ht, List.length_cons]
      omega
    | event ID =>
      have ht : isTick (.event ID) = false := rfl
      by_cases h : ID = "q" ∨ ID = "<C-c>"
      · have hq : isQuit (.event ID) = true := by rw [isQuit_event]; exact decide_eq_true h
        have hs : runLoop .Running draws (.event ID :: rest) = runLoop .Terminated draws rest := by
          simp only [runLoop, step, h, if_true, Nat.add_zero]
        rw [hs, List.takeWhile_cons]
        simp only [hq, Bool.not_true, List.filter_nil, List.length_nil, Nat.add_zero]
        cases rest <;> rfl
      · have hq : isQuit (.event ID) = false := by rw [isQuit_event]; exact decide_eq_false h
        have hs : runLoop .Running draws (.event ID :: rest) = runLoop .Running draws rest := by
          simp only [runLoop, step, h, if_false, Nat.add_zero]
        rw [hs, ih, List.takeWhile_cons]
        simp only [hq, Bool.not_false, if_true, List.filter_cons, ht]
        rfl

theorem runLoop_terminated (inputs : List LoopInput) (draws : Nat) :
    runLoop .Terminated draws inputs = (.Terminated, draws) := by
  cases inputs <;> rfl

theorem runLoop_state (inputs : List LoopInput) (draws : Nat) :
    (runLoop .Running draws inputs).1 = .Terminated ↔ ∃ i ∈ inputs, isQuit i = true := by
  induction inputs generalizing draws with
  | nil => simp [runLoop]
  | cons i rest ih =>
    cases i with
    | tick =>
      have hq : isQuit .tick = false := rfl
      have hs : runLoop .Running draws (.tick :: rest) = runLoop .Running (draws + 1) rest := rfl
      rw [hs, ih]
      simp [hq]
    | event ID =>
      by_cases h : ID = "q" ∨ ID = "<C-c>"
      · have hq : isQuit (.event ID) = true := by rw [isQuit_event]; exact decide_eq_true h
        have hs : runLoop .Running draws (.event ID :: rest) = runLoop .Terminated draws rest := by
          simp only [runLoop, step, h, if_true, Nat.add_zero]
        rw [hs, runLoop_terminated]
        simp [hq]
      · have hq : isQuit (.event ID) = false := by rw [isQuit_event]; exact decide_eq_false h
        have hs : runLoop .Running draws (.event ID :: rest) = runLoop .Running draws rest := by
          simp only [runLoop, step, h, if_false, Nat.add_zero]
        rw [hs, ih]
        simp [hq]

/-- C9: for every finite sequence of loop inputs, the number of `draw()` calls
is 1 (the initial draw) plus the number of timer ticks before the first event
"q" or "<C-c>"; the loop has terminated exactly when such an event occurred;
a tick makes exactly one draw and leaves the state `Running`. -/
theorem mainLoop_draws (inputs : List LoopInput) :
    (mainLoop inputs).2 = 1 + ((inputs.takeWhile (fun i => !isQuit i)).filter isTick).length ∧
    ((mainLoop inputs).1 = .Terminated ↔ ∃ i ∈ inputs, isQuit i = true) ∧
    step .Running .tick = (.Running, 1) :=
  ⟨runLoop_draws inputs 1, runLoop_state inputs 1, rfl⟩

end Mintop
